import Mathlib

/-!
# FerrisDB core: a shallow embedding with verified properties

This file embeds the core of the FerrisDB storage engine in Lean 4 and
proves properties of the embedded definitions.

The embedding covers:
* the little-endian integer codec and CRC-32 framing used by the WAL
  (`src/ferrisdb-storage/src/wal/log_entry.rs`),
* the WAL writer's size-limited append (`src/ferrisdb-storage/src/wal/writer.rs`),
* the MemTable skip list: internal-key comparison, insert, get and scan
  (`src/ferrisdb-storage/src/memtable/skip_list.rs`, `memtable/mod.rs`),
* the SSTable types, writer and reader
  (`src/ferrisdb-storage/src/sstable/{mod,writer,reader}.rs`).

Bytes are modelled as natural numbers (`u8` values are `< 256`); machine
integers are naturals with explicit `% 2 ^ w` truncation where the source
performs an `as u32` / `as u64` cast.  The concurrent skip list is modelled
by its level-0 chain: a list of entries sorted by the internal-key
comparison.  Upper levels of the skip list only accelerate the search and
do not change which node `find` positions on at level 0, so every
operation's result is a function of the level-0 chain.
-/

/-- Byte sequences (`Vec<u8>` / `&[u8]`): lists of naturals, each `< 256`. -/
abbrev Bytes := List Nat

/-- `ferrisdb_core::Operation` (`src/ferrisdb-core/src/types.rs`). -/
inductive Operation where
  | Put
  | Delete
deriving DecidableEq, Repr

/-- `ferrisdb_core::Error` (`src/ferrisdb-core/src/error.rs`).  String and
numeric payloads are kept where a claim depends on them; the
`KeyOrderingViolation` display strings are dropped (they are formatted
`user_key@timestamp` renderings irrelevant to every claim). -/
inductive Error where
  | Io
  | Serialization (msg : String)
  | KeyNotFound
  | Corruption (msg : String)
  | InvalidOperation (msg : String)
  | StorageEngine (msg : String)
  | MemTableFull
  | InvalidFormat (msg : String)
  | EntrySizeExceeded (size : Nat) (maxSize : Nat)
  | ResourceConsumed (msg : String)
  | EmptyOperation (msg : String)
  | KeyOrderingViolation
  | Transaction (msg : String)
deriving DecidableEq, Repr

/-! ## Little-endian byte codec

`bytes::BufMut::put_u32_le` / `put_u64_le` and the corresponding reads.
`leBytes w n` is the `w`-byte little-endian encoding of `n % 256 ^ w`;
`readLE l` recomposes a little-endian byte list into a natural. -/

/-- `w`-byte little-endian encoding of `n` (truncating above `256 ^ w`,
exactly as the Rust `as u32` / `as u64` casts truncate). -/
def leBytes : Nat → Nat → List Nat
  | 0, _ => []
  | w + 1, n => n % 256 :: leBytes w (n / 256)

/-- Recompose a little-endian byte list into a natural number. -/
def readLE : List Nat → Nat
  | [] => 0
  | b :: rest => b + 256 * readLE rest

@[simp] theorem leBytes_length (w n : Nat) : (leBytes w n).length = w := by
  induction w generalizing n with
  | zero => rfl
  | succ w ih => simp [leBytes, ih]

theorem readLE_leBytes (w n : Nat) : readLE (leBytes w n) = n % 256 ^ w := by
  induction w generalizing n with
  | zero => simp [leBytes, readLE, Nat.mod_one]
  | succ w ih =>
    simp only [leBytes, readLE, ih]
    rw [pow_succ', Nat.mod_mul]

theorem readLE_leBytes_of_lt {w n : Nat} (h : n < 256 ^ w) :
    readLE (leBytes w n) = n := by
  rw [readLE_leBytes, Nat.mod_eq_of_lt h]

theorem leBytes_lt (w n : Nat) : ∀ b ∈ leBytes w n, b < 256 := by
  induction w generalizing n with
  | zero => simp [leBytes]
  | succ w ih =>
    intro b hb
    simp only [leBytes, List.mem_cons] at hb
    rcases hb with h | h
    · exact h ▸ Nat.mod_lt _ (by omega)
    · exact ih _ b h

/-! ## Take/drop helpers for parsing concatenated byte strings -/

theorem take_append_left {w : Nat} (xs ys : List Nat) (h : xs.length = w) :
    (xs ++ ys).take w = xs := by
  subst h; exact List.take_left _ _

theorem drop_append_left {w : Nat} (xs ys : List Nat) (h : xs.length = w) :
    (xs ++ ys).drop w = ys := by
  subst h; exact List.drop_left _ _

/-! ## Byte-string and integer comparison

Rust compares `Vec<u8>` lexicographically as unsigned bytes, and `u64` by
value.  `bytesCmp` and `natCmp` model those `Ord` implementations. -/

/-- Lexicographic comparison of byte strings (`Ord` of Rust `Vec<u8>`). -/
def bytesCmp : Bytes → Bytes → Ordering
  | [], [] => .eq
  | [], _ :: _ => .lt
  | _ :: _, [] => .gt
  | x :: xs, y :: ys =>
    if x < y then .lt else if y < x then .gt else bytesCmp xs ys

/-- Comparison of naturals (`Ord` of Rust `u64`). -/
def natCmp (x y : Nat) : Ordering :=
  if x < y then .lt else if y < x then .gt else .eq

theorem natCmp_lt_iff {x y : Nat} : natCmp x y = .lt ↔ x < y := by
  unfold natCmp; split_ifs <;> simp <;> omega

theorem natCmp_gt_iff {x y : Nat} : natCmp x y = .gt ↔ y < x := by
  unfold natCmp; split_ifs <;> simp <;> omega

theorem natCmp_eq_iff {x y : Nat} : natCmp x y = .eq ↔ x = y := by
  unfold natCmp; split_ifs <;> simp <;> omega

theorem bytesCmp_cons_lt_iff {a b : Nat} {xs ys : Bytes} :
    bytesCmp (a :: xs) (b :: ys) = .lt ↔ a < b ∨ (a = b ∧ bytesCmp xs ys = .lt) := by
  simp only [bytesCmp]
  split_ifs with h1 h2
  · simp [h1]
  · constructor
    · intro h; exact absurd h (by decide)
    · intro h; omega
  · have hab : a = b := by omega
    simp [hab]

theorem bytesCmp_cons_gt_iff {a b : Nat} {xs ys : Bytes} :
    bytesCmp (a :: xs) (b :: ys) = .gt ↔ b < a ∨ (a = b ∧ bytesCmp xs ys = .gt) := by
  simp only [bytesCmp]
  split_ifs with h1 h2
  · constructor
    · intro h; exact absurd h (by decide)
    · intro h; omega
  · simp [h2]
  · have hab : a = b := by omega
    simp [hab]

theorem bytesCmp_eq_iff : ∀ {x y : Bytes}, bytesCmp x y = .eq ↔ x = y
  | [], [] => by simp [bytesCmp]
  | [], _ :: _ => by simp [bytesCmp]
  | _ :: _, [] => by simp [bytesCmp]
  | x :: xs, y :: ys => by
    simp only [bytesCmp]
    split_ifs with h1 h2
    · constructor
      · intro h; exact absurd h (by decide)
      · intro h; injection h with h h'; omega
    · constructor
      · intro h; exact absurd h (by decide)
      · intro h; injection h with h h'; omega
    · have hxy : x = y := by omega
      subst hxy
      rw [bytesCmp_eq_iff]
      simp

theorem bytesCmp_self (x : Bytes) : bytesCmp x x = .eq :=
  bytesCmp_eq_iff.mpr rfl

theorem bytesCmp_gt_iff_lt : ∀ {x y : Bytes}, bytesCmp x y = .gt ↔ bytesCmp y x = .lt
  | [], [] => by simp [bytesCmp]
  | [], _ :: _ => by simp [bytesCmp]
  | _ :: _, [] => by simp [bytesCmp]
  | x :: xs, y :: ys => by
    rw [bytesCmp_cons_gt_iff, bytesCmp_cons_lt_iff, bytesCmp_gt_iff_lt (x := xs) (y := ys)]
    constructor
    · rintro (h | ⟨h, h'⟩)
      · exact Or.inl h
      · exact Or.inr ⟨h.symm, h'⟩
    · rintro (h | ⟨h, h'⟩)
      · exact Or.inl h
      · exact Or.inr ⟨h.symm, h'⟩

theorem bytesCmp_lt_trans :
    ∀ {x y z : Bytes}, bytesCmp x y = .lt → bytesCmp y z = .lt → bytesCmp x z = .lt
  | [], y, [] => by
    intro _ h2
    cases y with
    | nil => simp [bytesCmp] at h2
    | cons b ys => simp [bytesCmp] at h2
  | [], _, _ :: _ => by intro _ _; simp [bytesCmp]
  | _ :: _, [], _ => by intro h1 _; simp [bytesCmp] at h1
  | x :: xs, y :: ys, [] => by intro _ h2; simp [bytesCmp] at h2
  | x :: xs, y :: ys, z :: zs => by
    intro h1 h2
    rw [bytesCmp_cons_lt_iff] at h1 h2 ⊢
    rcases h1 with h1 | ⟨h1, h1'⟩ <;> rcases h2 with h2 | ⟨h2, h2'⟩
    · exact Or.inl (by omega)
    · exact Or.inl (by omega)
    · exact Or.inl (by omega)
    · exact Or.inr ⟨by omega, bytesCmp_lt_trans h1' h2'⟩

/-! ## CRC-32 (IEEE), as computed by the `crc32fast` crate

Reflected table-less formulation: initial value `0xFFFFFFFF`, polynomial
`0xEDB88320`, final complement.  The WAL round-trip proof only uses that
`crc32` is a function with range `< 2 ^ 32`. -/

/-- One shift-and-conditionally-xor step of the reflected CRC-32 algorithm. -/
def crc32Step (c : Nat) : Nat :=
  if c % 2 = 1 then (c / 2) ^^^ 0xEDB88320 else c / 2

/-- Process a single byte into the running CRC state. -/
def crc32Update (crc b : Nat) : Nat :=
  crc32Step^[8] ((crc % 256) ^^^ (b % 256)) ^^^ (crc / 256)

/-- CRC-32 (IEEE) of a byte string (`crc32fast::Hasher` update + finalize). -/
def crc32 (data : List Nat) : Nat :=
  data.foldl crc32Update 0xFFFFFFFF ^^^ 0xFFFFFFFF

theorem crc32Step_lt {c : Nat} (h : c < 2 ^ 32) : crc32Step c < 2 ^ 32 := by
  unfold crc32Step
  split_ifs
  · exact Nat.xor_lt_two_pow (by omega) (by norm_num)
  · omega

theorem crc32Update_lt {crc : Nat} (b : Nat) (h : crc < 2 ^ 32) :
    crc32Update crc b < 2 ^ 32 := by
  unfold crc32Update
  refine Nat.xor_lt_two_pow ?_ (by omega)
  have hstep : ∀ n x, x < 2 ^ 32 → crc32Step^[n] x < 2 ^ 32 := by
    intro n
    induction n with
    | zero => intro x hx; simpa using hx
    | succ n ih =>
      intro x hx
      rw [Function.iterate_succ_apply]
      exact ih _ (crc32Step_lt hx)
  exact hstep 8 _ (Nat.xor_lt_two_pow (by omega) (by omega))

theorem crc32_lt (data : List Nat) : crc32 data < 2 ^ 32 := by
  unfold crc32
  refine Nat.xor_lt_two_pow ?_ (by norm_num)
  have hfold : ∀ (l : List Nat) (acc : Nat), acc < 2 ^ 32 →
      l.foldl crc32Update acc < 2 ^ 32 := by
    intro l
    induction l with
    | nil => intro acc h; simpa using h
    | cons b rest ih =>
      intro acc h
      exact ih _ (crc32Update_lt b h)
  exact hfold data _ (by norm_num)

/-! ## WAL log entries (`src/ferrisdb-storage/src/wal/log_entry.rs`) -/

/-- `WALEntry`: a single Put/Delete operation in the write-ahead log. -/
structure WALEntry where
  timestamp : Nat
  operation : Operation
  key : Bytes
  value : Bytes
deriving DecidableEq, Repr

/-- WAL op-byte encoding: `Put = 1`, `Delete = 2`. -/
def walOpByte : Operation → Nat
  | .Put => 1
  | .Delete => 2

/-- `WALEntry::encode`: `length (u32 LE) · crc32 (u32 LE) · timestamp
(u64 LE) · op (1B) · key_len (u32 LE) · key · val_len (u32 LE) · value`.
`length` counts every byte after the length field, `crc32` covers every
byte after the checksum field. -/
def WALEntry.encode (e : WALEntry) : Bytes :=
  let body := leBytes 8 e.timestamp ++ [walOpByte e.operation] ++
    leBytes 4 e.key.length ++ e.key ++ leBytes 4 e.value.length ++ e.value
  leBytes 4 (body.length + 4) ++ leBytes 4 (crc32 body) ++ body

/-- Error message constants used by `WALEntry::decode`. -/
def walTooSmallMsg : String := "WAL entry too small"

def walLenMismatchMsg : String := "WAL entry length mismatch"

def walCrcMsg : String := "WAL entry checksum mismatch"

def walBadOpMsg : String := "Invalid operation type"

def walKeyLenMsg : String := "Key length exceeds data"

def walValueLenMsg : String := "Value length exceeds data"

/-- `WALEntry::decode`.  The cursor of the Rust source is modelled with
`take`/`drop`.  Where the Rust `bytes` crate would panic on a read past
the end of the buffer (unreachable for any buffer produced by `encode`),
the model returns `Error.Io`. -/
def WALEntry.decode (data : Bytes) : Except Error WALEntry :=
  if data.length < 8 then .error (.Corruption walTooSmallMsg)
  else
    let length := readLE (data.take 4)
    let cur1 := data.drop 4
    if data.length ≠ length + 4 then .error (.Corruption walLenMismatchMsg)
    else
      let expected := readLE (cur1.take 4)
      let cur2 := cur1.drop 4
      if expected ≠ crc32 (data.drop 8) then .error (.Corruption walCrcMsg)
      else
        let timestamp := readLE (cur2.take 8)
        let cur3 := cur2.drop 8
        match cur3 with
        | [] => .error .Io
        | opByte :: cur4 =>
          match (if opByte = 1 then some Operation.Put
                 else if opByte = 2 then some Operation.Delete else none) with
          | none => .error (.Corruption walBadOpMsg)
          | some operation =>
            if cur4.length < 4 then .error .Io
            else
              let keyLen := readLE (cur4.take 4)
              let cur5 := cur4.drop 4
              if cur5.length < keyLen then .error (.Corruption walKeyLenMsg)
              else
                let key := cur5.take keyLen
                let cur6 := cur5.drop keyLen
                if cur6.length < 4 then .error .Io
                else
                  let valueLen := readLE (cur6.take 4)
                  let cur7 := cur6.drop 4
                  if cur7.length < valueLen then .error (.Corruption walValueLenMsg)
                  else .ok ⟨timestamp, operation, key, cur7.take valueLen⟩

@[simp] theorem take_leBytes_append (w n : Nat) (rest : List Nat) :
    (leBytes w n ++ rest).take w = leBytes w n :=
  take_append_left _ _ (leBytes_length _ _)

@[simp] theorem drop_leBytes_append (w n : Nat) (rest : List Nat) :
    (leBytes w n ++ rest).drop w = rest :=
  drop_append_left _ _ (leBytes_length _ _)

/-- **C2.**  For every WAL record `r = (version, op, key, value)` with
`|key| ≤ 16 MiB` and `|value| ≤ 16 MiB`, decoding the byte string produced
by encoding `r` succeeds and yields a record equal to `r`:
`WALEntry::decode(WALEntry::encode(r)) == Ok(r)`.  (The hypotheses model
the Rust types: the version is a `u64` and key/value bytes are `u8`.) -/
theorem wal_decode_encode (e : WALEntry)
    (hk : e.key.length ≤ 16 * 1024 * 1024) (hv : e.value.length ≤ 16 * 1024 * 1024)
    (hts : e.timestamp < 2 ^ 64)
    (_hkb : ∀ b ∈ e.key, b < 256) (_hvb : ∀ b ∈ e.value, b < 256) :
    WALEntry.decode (WALEntry.encode e) = .ok e := by
  obtain ⟨ts, op, key, value⟩ := e
  simp only at hk hv hts
  unfold WALEntry.encode
  simp only []
  set body : Bytes := leBytes 8 ts ++ [walOpByte op] ++
    leBytes 4 key.length ++ key ++ leBytes 4 value.length ++ value with hbody
  have hbodylen : body.length = 17 + key.length + value.length := by
    simp [hbody]; omega
  have h2to32 : (256 : Nat) ^ 4 = 2 ^ 32 := by norm_num
  have h2to64 : (256 : Nat) ^ 8 = 2 ^ 64 := by norm_num
  have hdata8 : (leBytes 4 (body.length + 4) ++ (leBytes 4 (crc32 body) ++ body)).drop 8
      = body := by
    rw [show (8 : Nat) = 4 + 4 from rfl, ← List.drop_drop]
    simp
  unfold WALEntry.decode
  rw [List.append_assoc, hdata8]
  have hlen : (leBytes 4 (body.length + 4) ++ (leBytes 4 (crc32 body) ++ body)).length
      = 8 + body.length := by simp; omega
  rw [if_neg (by rw [hlen]; omega)]
  rw [take_leBytes_append, drop_leBytes_append]
  rw [readLE_leBytes_of_lt (by rw [hbodylen, h2to32]; omega)]
  rw [if_neg (by rw [hlen]; omega)]
  rw [take_leBytes_append, drop_leBytes_append]
  rw [readLE_leBytes_of_lt (by rw [h2to32]; exact crc32_lt body)]
  rw [if_neg (by exact fun h => h rfl)]
  rw [hbody]
  rw [List.append_assoc, List.append_assoc, List.append_assoc, List.append_assoc]
  rw [take_leBytes_append, drop_leBytes_append]
  rw [readLE_leBytes_of_lt (by rw [h2to64]; exact hts)]
  rw [List.singleton_append]
  have hopb : (if walOpByte op = 1 then some Operation.Put
      else if walOpByte op = 2 then some Operation.Delete else none) = some op := by
    cases op <;> simp [walOpByte]
  simp only [hopb]
  have hcur4len : (leBytes 4 key.length ++ (key ++ (leBytes 4 value.length ++ value))).length
      = 8 + key.length + value.length := by simp; omega
  rw [if_neg (by rw [hcur4len]; omega)]
  rw [take_leBytes_append, drop_leBytes_append]
  rw [readLE_leBytes_of_lt (by rw [h2to32]; omega)]
  have hcur5len : (key ++ (leBytes 4 value.length ++ value)).length
      = 4 + key.length + value.length := by simp; omega
  rw [if_neg (by rw [hcur5len]; omega)]
  rw [take_append_left _ _ rfl, drop_append_left _ _ rfl]
  have hcur6len : (leBytes 4 value.length ++ value).length = 4 + value.length := by simp
  rw [if_neg (by rw [hcur6len]; omega)]
  rw [take_leBytes_append, drop_leBytes_append]
  rw [readLE_leBytes_of_lt (by rw [h2to32]; omega)]
  rw [if_neg (by omega)]
  rw [List.take_length]

/-- Witness for C2: the round-trip evaluated at the concrete record
`(12345, Put, "key", "val")`. -/
theorem wal_decode_encode_witness :
    WALEntry.decode (WALEntry.encode ⟨12345, .Put, [107, 101, 121], [118, 97, 108]⟩) =
      .ok ⟨12345, .Put, [107, 101, 121], [118, 97, 108]⟩ :=
  wal_decode_encode _ (by decide) (by decide) (by decide) (by decide) (by decide)

/-! ## WAL writer (`src/ferrisdb-storage/src/wal/writer.rs`)

The writer is modelled by its tracked size, its size limit and the bytes
appended to the log file.  The sync mode only controls flushing of an
already-performed write and I/O errors are not modelled, so neither
affects the embedded state. -/

/-- The message of the error returned by `WALWriter::append` when the
size limit is reached (`writer.rs` line 92): the source has no dedicated
`WalFull` variant and uses `Error::StorageEngine` with this string. -/
def walFullMsg : String := "WAL file size limit reached"

/-- `WALWriter` state. -/
structure WALWriter where
  size : Nat
  size_limit : Nat
  file : Bytes
deriving DecidableEq, Repr

/-- `WALWriter::append`: encode, reject when the tracked size plus the
encoded length exceeds the limit, otherwise write the bytes and add the
encoded length to the tracked size. -/
def WALWriter.append (w : WALWriter) (entry : WALEntry) : WALWriter × Except Error Unit :=
  let encoded := entry.encode
  let entry_size := encoded.length
  if w.size + entry_size > w.size_limit then
    (w, .error (.StorageEngine walFullMsg))
  else
    ({ w with file := w.file ++ encoded, size := w.size + entry_size }, .ok ())

/-- Counterexample to C6 as stated: on a full writer, `append` fails with
the generic `Error::StorageEngine("WAL file size limit reached")` — the
`Error` enum of `ferrisdb-core` has no distinct `WalFull` variant. -/
theorem wal_append_no_walfull_variant :
    (WALWriter.append ⟨0, 0, []⟩ ⟨1, .Put, [97], [98]⟩).2 =
      .error (.StorageEngine walFullMsg) := rfl

/-- **C6 (amended).**  For every `WALWriter` with tracked size `s`, size
limit `L`, and entry whose encoding has length `n`: if `s + n > L`,
`append` fails with `Error::StorageEngine("WAL file size limit reached")`
(there is no distinct `WalFull` variant) and writes nothing — tracked
size, limit and file contents unchanged; otherwise `append` appends the
`n` encoded bytes to the file and adds exactly `n` to the tracked size. -/
theorem wal_append_size_limit (w : WALWriter) (e : WALEntry) :
    (w.size + e.encode.length > w.size_limit →
      w.append e = (w, .error (.StorageEngine walFullMsg))) ∧
    (w.size + e.encode.length ≤ w.size_limit →
      (w.append e).2 = .ok () ∧
        (w.append e).1.size = w.size + e.encode.length ∧
        (w.append e).1.file = w.file ++ e.encode ∧
        (w.append e).1.size_limit = w.size_limit) := by
  unfold WALWriter.append
  constructor
  · intro h
    rw [if_pos h]
  · intro h
    rw [if_neg (by omega)]
    exact ⟨rfl, rfl, rfl, rfl⟩

/-- Witness for C6: both branches of `wal_append_size_limit` applied at
concrete writers and a concrete entry. -/
theorem wal_append_size_limit_witness :
    (WALWriter.append ⟨0, 0, []⟩ ⟨1, .Put, [97], [98]⟩ =
      (⟨0, 0, []⟩, .error (.StorageEngine walFullMsg))) ∧
    ((WALWriter.append ⟨0, 1024, []⟩ ⟨1, .Put, [97], [98]⟩).2 = .ok () ∧
      (WALWriter.append ⟨0, 1024, []⟩ ⟨1, .Put, [97], [98]⟩).1.size =
        0 + (WALEntry.encode ⟨1, .Put, [97], [98]⟩).length) := by
  refine ⟨(wal_append_size_limit ⟨0, 0, []⟩ ⟨1, .Put, [97], [98]⟩).1 (by decide), ?_, ?_⟩
  · exact ((wal_append_size_limit ⟨0, 1024, []⟩ ⟨1, .Put, [97], [98]⟩).2 (by decide)).1
  · exact ((wal_append_size_limit ⟨0, 1024, []⟩ ⟨1, .Put, [97], [98]⟩).2 (by decide)).2.1

/-! ## MemTable skip list (`src/ferrisdb-storage/src/memtable/skip_list.rs`)

The concurrent skip list is embedded by its level-0 chain: a list of
nodes sorted by `InternalKey::compare`.  The probabilistic upper levels
only speed up `find`; at level 0 `find` always positions on the first
node that is not less than the search key, so `insert`, `get` and `scan`
are functions of the level-0 chain alone. -/

/-- `InternalKey` of the skip list: user key, MVCC timestamp and
operation tag. -/
structure InternalKey where
  user_key : Bytes
  timestamp : Nat
  operation : Operation
deriving DecidableEq, Repr

/-- `InternalKey::compare` (skip_list.rs lines 55-67): user key ascending,
then timestamp descending (`other.timestamp.cmp(&self.timestamp)`); the
operation does not participate. -/
def InternalKey.compare (self other : InternalKey) : Ordering :=
  match bytesCmp self.user_key other.user_key with
  | .eq =>
    match natCmp other.timestamp self.timestamp with
    | .eq => .eq
    | o => o
  | o => o

/-- A node of the skip list: an internal key and its value. -/
structure Node where
  key : InternalKey
  value : Bytes
deriving DecidableEq, Repr

/-- The strict order on nodes induced by `InternalKey::compare`. -/
abbrev nodeLt (a b : Node) : Prop := a.key.compare b.key = .lt

theorem InternalKey.compare_eq_iff {a b : InternalKey} :
    a.compare b = .eq ↔ a.user_key = b.user_key ∧ a.timestamp = b.timestamp := by
  unfold InternalKey.compare
  cases h : bytesCmp a.user_key b.user_key with
  | eq =>
    rw [bytesCmp_eq_iff] at h
    cases h2 : natCmp b.timestamp a.timestamp with
    | eq => rw [natCmp_eq_iff] at h2; simp [h, h2]
    | lt => rw [natCmp_lt_iff] at h2; simp [h]; omega
    | gt => rw [natCmp_gt_iff] at h2; simp [h]; omega
  | lt =>
    have : a.user_key ≠ b.user_key := fun he => by
      rw [he, bytesCmp_self] at h; exact absurd h (by decide)
    simp [this]
  | gt =>
    have : a.user_key ≠ b.user_key := fun he => by
      rw [he, bytesCmp_self] at h; exact absurd h (by decide)
    simp [this]

theorem InternalKey.compare_lt_iff {a b : InternalKey} :
    a.compare b = .lt ↔
      bytesCmp a.user_key b.user_key = .lt ∨
        (a.user_key = b.user_key ∧ b.timestamp < a.timestamp) := by
  unfold InternalKey.compare
  cases h : bytesCmp a.user_key b.user_key with
  | eq =>
    rw [bytesCmp_eq_iff] at h
    cases h2 : natCmp b.timestamp a.timestamp with
    | eq => rw [natCmp_eq_iff] at h2; simp [h]; omega
    | lt => rw [natCmp_lt_iff] at h2; simp [h]; omega
    | gt => rw [natCmp_gt_iff] at h2; simp [h]; omega
  | lt =>
    simp [h]
  | gt =>
    have : a.user_key ≠ b.user_key := fun he => by
      rw [he, bytesCmp_self] at h; exact absurd h (by decide)
    simp [h, this]

theorem InternalKey.compare_gt_iff {a b : InternalKey} :
    a.compare b = .gt ↔ b.compare a = .lt := by
  unfold InternalKey.compare
  cases h : bytesCmp a.user_key b.user_key with
  | eq =>
    rw [bytesCmp_eq_iff] at h
    rw [h, bytesCmp_self]
    cases h2 : natCmp b.timestamp a.timestamp with
    | eq =>
      rw [natCmp_eq_iff] at h2
      rw [h2, show natCmp a.timestamp a.timestamp = .eq from natCmp_eq_iff.mpr rfl]
      simp
    | lt =>
      rw [natCmp_lt_iff] at h2
      rw [show natCmp a.timestamp b.timestamp = .gt from natCmp_gt_iff.mpr h2]
      simp
    | gt =>
      rw [natCmp_gt_iff] at h2
      rw [show natCmp a.timestamp b.timestamp = .lt from natCmp_lt_iff.mpr h2]
      simp
  | lt =>
    rw [show bytesCmp b.user_key a.user_key = .gt from bytesCmp_gt_iff_lt.mpr h]
    simp
  | gt =>
    rw [show bytesCmp b.user_key a.user_key = .lt from bytesCmp_gt_iff_lt.mp h]
    simp

theorem InternalKey.compare_lt_trans {a b c : InternalKey}
    (h1 : a.compare b = .lt) (h2 : b.compare c = .lt) : a.compare c = .lt := by
  rw [InternalKey.compare_lt_iff] at h1 h2 ⊢
  rcases h1 with h1 | ⟨h1, h1'⟩ <;> rcases h2 with h2 | ⟨h2, h2'⟩
  · exact Or.inl (bytesCmp_lt_trans h1 h2)
  · exact Or.inl (h2 ▸ h1)
  · exact Or.inl (h1 ▸ h2)
  · exact Or.inr ⟨h1.trans h2, by omega⟩

/-- The maximum `u64` value, used by `SkipList::get` as the timestamp of
its synthetic search key. -/
def u64Max : Nat := 2 ^ 64 - 1

/-- `SkipList::insert` restricted to the level-0 chain: walk while the
new key is greater than the current node, no-op on an exact match
(`find` returning `true`), otherwise link the new node before the first
node that is not less than it. -/
def SkipList.insertNode (key : InternalKey) (value : Bytes) : List Node → List Node
  | [] => [⟨key, value⟩]
  | n :: rest =>
    match key.compare n.key with
    | .gt => n :: SkipList.insertNode key value rest
    | .eq => n :: rest
    | .lt => ⟨key, value⟩ :: n :: rest

/-- `SkipList::insert(user_key, value, timestamp, operation)`. -/
def SkipList.insert (l : List Node) (user_key value : Bytes) (timestamp : Nat)
    (operation : Operation) : List Node :=
  SkipList.insertNode ⟨user_key, timestamp, operation⟩ value l

/-- The forward walk of `SkipList::get` from the position `find` returned:
stop at the first node of the sought user key whose timestamp is `≤ ts`. -/
def SkipList.getLoop (user_key : Bytes) (timestamp : Nat) : List Node → Option (Bytes × Operation)
  | [] => none
  | n :: rest =>
    if n.key.user_key ≠ user_key then none
    else if n.key.timestamp ≤ timestamp then some (n.value, n.key.operation)
    else SkipList.getLoop user_key timestamp rest

/-- `SkipList::get(user_key, timestamp)`: position with the synthetic
search key `(user_key, u64::MAX, Put)`, then walk forward at level 0. -/
def SkipList.get (l : List Node) (user_key : Bytes) (timestamp : Nat) :
    Option (Bytes × Operation) :=
  let search_key : InternalKey := ⟨user_key, u64Max, .Put⟩
  SkipList.getLoop user_key timestamp
    (l.dropWhile fun n => search_key.compare n.key == Ordering.gt)

/-- The forward walk of `SkipList::scan`: collect at most one entry per
user key (its first version `≤ ts`, skipping `Delete` tombstones) until
a node's user key reaches `end_key`. -/
def SkipList.scanLoop (end_key : Bytes) (timestamp : Nat) :
    List Node → List Bytes → List (Bytes × Bytes)
  | [], _ => []
  | n :: rest, seen =>
    if bytesCmp n.key.user_key end_key ≠ .lt then []
    else if n.key.timestamp ≤ timestamp ∧ n.key.user_key ∉ seen then
      if n.key.operation = .Put then
        (n.key.user_key, n.value) :: SkipList.scanLoop end_key timestamp rest (n.key.user_key :: seen)
      else SkipList.scanLoop end_key timestamp rest (n.key.user_key :: seen)
    else SkipList.scanLoop end_key timestamp rest seen

/-- `SkipList::scan(start_key, end_key, timestamp)`: position with the
search key `(start_key, timestamp, Put)`, then walk forward collecting
visible entries. -/
def SkipList.scan (l : List Node) (start_key end_key : Bytes) (timestamp : Nat) :
    List (Bytes × Bytes) :=
  let search_key : InternalKey := ⟨start_key, timestamp, .Put⟩
  SkipList.scanLoop end_key timestamp
    (l.dropWhile fun n => search_key.compare n.key == Ordering.gt) []

/-! ## MemTable (`src/ferrisdb-storage/src/memtable/mod.rs`) -/

/-- `MemTable`: the shared skip list (level-0 chain), the approximate
memory usage counter and the capacity. -/
structure MemTable where
  skiplist : List Node
  memory_usage : Nat
  max_size : Nat
deriving DecidableEq, Repr

/-- `MemTable::new(max_size)`. -/
def MemTable.new (max_size : Nat) : MemTable :=
  ⟨[], 0, max_size⟩

/-- `MemTable::put`: insert a `Put` entry, then add
`key.len() + value.len() + 64` to the usage counter (`fetch_add` returns
the previous value) and fail with `MemTableFull` when the updated usage
exceeds the capacity.  The insert happens before the capacity check. -/
def MemTable.put (m : MemTable) (key value : Bytes) (timestamp : Nat) :
    MemTable × Except Error Unit :=
  let size_estimate := key.length + value.length + 64
  let skiplist := SkipList.insert m.skiplist key value timestamp .Put
  let new_usage := m.memory_usage
  let m' : MemTable := ⟨skiplist, m.memory_usage + size_estimate, m.max_size⟩
  if new_usage + size_estimate > m.max_size then (m', .error .MemTableFull)
  else (m', .ok ())

/-- `MemTable::delete`: insert a `Delete` tombstone with an empty value;
size accounting uses `key.len() + 64`. -/
def MemTable.delete (m : MemTable) (key : Bytes) (timestamp : Nat) :
    MemTable × Except Error Unit :=
  let size_estimate := key.length + 64
  let skiplist := SkipList.insert m.skiplist key [] timestamp .Delete
  let new_usage := m.memory_usage
  let m' : MemTable := ⟨skiplist, m.memory_usage + size_estimate, m.max_size⟩
  if new_usage + size_estimate > m.max_size then (m', .error .MemTableFull)
  else (m', .ok ())

/-- `MemTable::get` delegates to the skip list. -/
def MemTable.get (m : MemTable) (key : Bytes) (timestamp : Nat) :
    Option (Bytes × Operation) :=
  SkipList.get m.skiplist key timestamp

/-- `MemTable::scan` delegates to the skip list. -/
def MemTable.scan (m : MemTable) (start_key end_key : Bytes) (timestamp : Nat) :
    List (Bytes × Bytes) :=
  SkipList.scan m.skiplist start_key end_key timestamp

/-! ## Sorted-chain infrastructure -/

/-- Elements surviving `dropWhile p` on a sorted list all falsify `p`,
provided `p` is downward closed along the order. -/
theorem sorted_dropWhile_not {α : Type} {R : α → α → Prop} {p : α → Bool}
    (hdc : ∀ a b, R a b → p b = true → p a = true) :
    ∀ (l : List α), l.Pairwise R → ∀ x ∈ l.dropWhile p, p x = false := by
  intro l
  induction l with
  | nil => intro _ x hx; simp [List.dropWhile] at hx
  | cons a l ih =>
    intro hl x hx
    rw [List.pairwise_cons] at hl
    rw [List.dropWhile_cons] at hx
    by_cases hpa : p a = true
    · rw [if_pos hpa] at hx
      exact ih hl.2 x hx
    · rw [if_neg hpa] at hx
      rcases List.mem_cons.mp hx with rfl | hx'
      · exact Bool.eq_false_iff.mpr hpa
      · by_cases hpx : p x = true
        · exact absurd (hdc a x (hl.1 x hx') hpx) hpa
        · exact Bool.eq_false_iff.mpr hpx

/-- Every member of `insertNode key value l` is a member of `l` or the
new node. -/
theorem mem_insertNode {key : InternalKey} {value : Bytes} :
    ∀ {l : List Node} {m : Node}, m ∈ SkipList.insertNode key value l →
      m ∈ l ∨ m = ⟨key, value⟩ := by
  intro l
  induction l with
  | nil =>
    intro m hm
    simp [SkipList.insertNode] at hm
    exact Or.inr hm
  | cons n rest ih =>
    intro m hm
    unfold SkipList.insertNode at hm
    cases hc : key.compare n.key with
    | gt =>
      rw [hc] at hm
      rcases List.mem_cons.mp hm with rfl | hm'
      · exact Or.inl (List.mem_cons_self _ _)
      · rcases ih hm' with h | h
        · exact Or.inl (List.mem_cons_of_mem _ h)
        · exact Or.inr h
    | eq =>
      rw [hc] at hm
      exact Or.inl hm
    | lt =>
      rw [hc] at hm
      rcases List.mem_cons.mp hm with rfl | hm'
      · exact Or.inr rfl
      · exact Or.inl hm'

/-- `insertNode` preserves sortedness of the level-0 chain. -/
theorem insertNode_pairwise (key : InternalKey) (value : Bytes) :
    ∀ (l : List Node), l.Pairwise nodeLt →
      (SkipList.insertNode key value l).Pairwise nodeLt := by
  intro l
  induction l with
  | nil => intro _; simp [SkipList.insertNode]
  | cons n rest ih =>
    intro hl
    rw [List.pairwise_cons] at hl
    unfold SkipList.insertNode
    cases hc : key.compare n.key with
    | gt =>
      rw [List.pairwise_cons]
      refine ⟨?_, ih hl.2⟩
      intro m hm
      rcases mem_insertNode hm with h | rfl
      · exact hl.1 m h
      · exact InternalKey.compare_gt_iff.mp hc
    | eq =>
      rw [List.pairwise_cons]
      exact hl
    | lt =>
      rw [List.pairwise_cons]
      refine ⟨?_, List.pairwise_cons.mpr hl⟩
      intro m hm
      rcases List.mem_cons.mp hm with rfl | hm'
      · exact hc
      · exact InternalKey.compare_lt_trans hc (hl.1 m hm')

/-- An insert whose `(user_key, timestamp)` already occurs in the sorted
chain is a no-op, regardless of the operation or value of either entry. -/
theorem insertNode_noop {key : InternalKey} {value : Bytes} :
    ∀ {l : List Node}, l.Pairwise nodeLt →
      (∃ n ∈ l, n.key.user_key = key.user_key ∧ n.key.timestamp = key.timestamp) →
      SkipList.insertNode key value l = l := by
  intro l
  induction l with
  | nil => intro _ h; simp at h
  | cons n rest ih =>
    intro hl hex
    rw [List.pairwise_cons] at hl
    obtain ⟨w, hw, hwk, hwt⟩ := hex
    have hkeyw : key.compare w.key = .eq :=
      InternalKey.compare_eq_iff.mpr ⟨hwk.symm, hwt.symm⟩
    unfold SkipList.insertNode
    cases hc : key.compare n.key with
    | gt =>
      rcases List.mem_cons.mp hw with rfl | hw'
      · rw [hkeyw] at hc; exact absurd hc (by decide)
      · rw [ih hl.2 ⟨w, hw', hwk, hwt⟩]
    | eq => rfl
    | lt =>
      exfalso
      rcases List.mem_cons.mp hw with rfl | hw'
      · rw [hkeyw] at hc; exact absurd hc (by decide)
      · have : key.compare w.key = .lt :=
          InternalKey.compare_lt_trans hc (hl.1 w hw')
        rw [hkeyw] at this; exact absurd this (by decide)

theorem ordering_beq_iff (o o' : Ordering) : (o == o') = true ↔ o = o' := by
  cases o <;> cases o' <;> decide

/-- If `bytesCmp x y` is neither `lt` nor `eq`-inducing (`x ≠ y`), then
`y` is strictly below `x`. -/
theorem bytesCmp_lt_of_not_lt_of_ne {x y : Bytes}
    (h1 : bytesCmp x y ≠ .lt) (h2 : x ≠ y) : bytesCmp y x = .lt := by
  cases h : bytesCmp x y with
  | lt => exact absurd h h1
  | eq => exact absurd (bytesCmp_eq_iff.mp h) h2
  | gt => exact bytesCmp_gt_iff_lt.mp h

/-- Specification of the forward walk of `SkipList::get`: on a sorted
suffix whose members are all at or past the sought user key, the walk
returns the qualifying entry with the greatest timestamp, or `none` if
no entry for the key has timestamp `≤ ts`. -/
theorem getLoop_spec (k : Bytes) (ts : Nat) :
    ∀ (rest : List Node), rest.Pairwise nodeLt →
      (∀ n ∈ rest, bytesCmp n.key.user_key k ≠ .lt) →
      match SkipList.getLoop k ts rest with
      | some (v, op) => ∃ n ∈ rest, n.key.user_key = k ∧ n.key.timestamp ≤ ts ∧
          n.value = v ∧ n.key.operation = op ∧
          ∀ m ∈ rest, m.key.user_key = k → m.key.timestamp ≤ ts →
            m.key.timestamp ≤ n.key.timestamp
      | none => ∀ n ∈ rest, n.key.user_key = k → ts < n.key.timestamp := by
  intro rest
  induction rest with
  | nil =>
    intro _ _
    simp [SkipList.getLoop]
  | cons n rest ih =>
    intro hsort hfront
    rw [List.pairwise_cons] at hsort
    by_cases hne : n.key.user_key = k
    · by_cases hts : n.key.timestamp ≤ ts
      · have hres : SkipList.getLoop k ts (n :: rest) = some (n.value, n.key.operation) := by
          unfold SkipList.getLoop
          rw [if_neg (by simpa using hne), if_pos hts]
        rw [hres]
        refine ⟨n, List.mem_cons_self _ _, hne, hts, rfl, rfl, ?_⟩
        intro m hm hmk hmts
        rcases List.mem_cons.mp hm with rfl | hm'
        · exact le_refl _
        · have hlt := hsort.1 m hm'
          rw [nodeLt, InternalKey.compare_lt_iff] at hlt
          rcases hlt with hlt | ⟨_, hlt⟩
          · rw [hne, hmk] at hlt
            rw [bytesCmp_self] at hlt
            exact absurd hlt (by decide)
          · omega
      · have hres : SkipList.getLoop k ts (n :: rest) = SkipList.getLoop k ts rest := by
          unfold SkipList.getLoop
          rw [if_neg (by simpa using hne), if_neg hts]
          cases rest <;> rfl
        rw [hres]
        have ihh := ih hsort.2 (fun m hm => hfront m (List.mem_cons_of_mem _ hm))
        cases hval : SkipList.getLoop k ts rest with
        | some vo =>
          rw [hval] at ihh
          obtain ⟨v, op⟩ := vo
          obtain ⟨n', hn', h1, h2, h3, h4, h5⟩ := ihh
          refine ⟨n', List.mem_cons_of_mem _ hn', h1, h2, h3, h4, ?_⟩
          intro m hm hmk hmts
          rcases List.mem_cons.mp hm with rfl | hm'
          · omega
          · exact h5 m hm' hmk hmts
        | none =>
          rw [hval] at ihh
          intro m hm hmk
          rcases List.mem_cons.mp hm with rfl | hm'
          · omega
          · exact ihh m hm' hmk
    · have hres : SkipList.getLoop k ts (n :: rest) = none := by
        unfold SkipList.getLoop
        rw [if_pos (by simpa using hne)]
      rw [hres]
      intro m hm hmk
      exfalso
      have hkn : bytesCmp k n.key.user_key = .lt :=
        bytesCmp_lt_of_not_lt_of_ne (hfront n (List.mem_cons_self _ _)) (fun he => hne he)
      rcases List.mem_cons.mp hm with rfl | hm'
      · exact hne hmk
      · have hlt := hsort.1 m hm'
        rw [nodeLt, InternalKey.compare_lt_iff] at hlt
        rcases hlt with hlt | ⟨heq, _⟩
        · have : bytesCmp k m.key.user_key = .lt := bytesCmp_lt_trans hkn hlt
          rw [hmk, bytesCmp_self] at this
          exact absurd this (by decide)
        · rw [heq, hmk, bytesCmp_self] at hkn
          exact absurd hkn (by decide)

/-- `SkipList::get` on a sorted level-0 chain of `u64`-stamped entries
returns the qualifying entry of greatest timestamp, or `none` when no
entry for the key has timestamp `≤ ts`. -/
theorem skiplist_get_spec (l : List Node) (hsort : l.Pairwise nodeLt)
    (hts64 : ∀ n ∈ l, n.key.timestamp < 2 ^ 64) (k : Bytes) (ts : Nat) :
    match SkipList.get l k ts with
    | some (v, op) => ∃ n ∈ l, n.key.user_key = k ∧ n.key.timestamp ≤ ts ∧
        n.value = v ∧ n.key.operation = op ∧
        ∀ w ∈ l, w.key.user_key = k → w.key.timestamp ≤ ts →
          w.key.timestamp ≤ n.key.timestamp
    | none => ∀ n ∈ l, n.key.user_key = k → ts < n.key.timestamp := by
  have hget : SkipList.get l k ts =
      SkipList.getLoop k ts
        (l.dropWhile fun n =>
          (InternalKey.mk k u64Max .Put).compare n.key == Ordering.gt) := rfl
  set sk : InternalKey := ⟨k, u64Max, .Put⟩ with hsk
  set p : Node → Bool := fun n => sk.compare n.key == Ordering.gt with hp
  have hp_iff : ∀ n, p n = true ↔ sk.compare n.key = .gt := fun n =>
    ordering_beq_iff _ _
  have hp_lt : ∀ n, p n = true ↔
      (bytesCmp n.key.user_key k = .lt ∨ (n.key.user_key = k ∧ u64Max < n.key.timestamp)) := by
    intro n
    rw [hp_iff, InternalKey.compare_gt_iff, InternalKey.compare_lt_iff]
  have hdrop : ∀ x ∈ l.dropWhile p, p x = false := by
    refine sorted_dropWhile_not ?_ l hsort
    intro a b hab hpb
    rw [hp_iff] at hpb ⊢
    rw [InternalKey.compare_gt_iff] at hpb ⊢
    exact InternalKey.compare_lt_trans hab hpb
  have hfront : ∀ n ∈ l.dropWhile p, bytesCmp n.key.user_key k ≠ .lt := by
    intro n hn hcon
    have := hdrop n hn
    rw [Bool.eq_false_iff] at this
    exact this ((hp_lt n).mpr (Or.inl hcon))
  have hsub : (l.dropWhile p).Sublist l := List.dropWhile_sublist p
  have hrest_sorted : (l.dropWhile p).Pairwise nodeLt := hsort.sublist hsub
  have hqual_mem : ∀ w ∈ l, w.key.user_key = k → w ∈ l.dropWhile p := by
    intro w hw hwk
    have hsplit : l.takeWhile p ++ l.dropWhile p = l := List.takeWhile_append_dropWhile p l
    rw [← hsplit] at hw
    rcases List.mem_append.mp hw with hw' | hw'
    · exfalso
      have hpw : p w = true := List.mem_takeWhile_imp hw'
      rcases (hp_lt w).mp hpw with hc | ⟨_, hc⟩
      · rw [hwk, bytesCmp_self] at hc
        exact absurd hc (by decide)
      · have := hts64 w (by rw [← hsplit]; exact List.mem_append.mpr (Or.inl hw'))
        unfold u64Max at hc
        omega
    · exact hw'
  have hspec := getLoop_spec k ts (l.dropWhile p) hrest_sorted hfront
  rw [hget]
  cases hval : SkipList.getLoop k ts (l.dropWhile p) with
  | some vo =>
    rw [hval] at hspec
    obtain ⟨v, op⟩ := vo
    obtain ⟨n, hn, h1, h2, h3, h4, h5⟩ := hspec
    refine ⟨n, hsub.subset hn, h1, h2, h3, h4, ?_⟩
    intro w hw hwk hwts
    exact h5 w (hqual_mem w hw hwk) hwk hwts
  | none =>
    rw [hval] at hspec
    intro n hn hnk
    exact hspec n (hqual_mem n hn hnk) hnk

/-- **C1.**  For every MemTable whose skip list holds entries for user
key `k` (with distinct versions, as sortedness of the level-0 chain
forces) and for every timestamp `ts`: `get(k, ts)` returns the
`(value, operation)` of the entry for `k` with the greatest version
`≤ ts`, and returns `None` if no entry for `k` has version `≤ ts`.
Timestamps are `u64` values. -/
theorem memtable_get_mvcc (m : MemTable) (hsort : m.skiplist.Pairwise nodeLt)
    (hts64 : ∀ n ∈ m.skiplist, n.key.timestamp < 2 ^ 64) (k : Bytes) (ts : Nat) :
    match MemTable.get m k ts with
    | some (v, op) => ∃ n ∈ m.skiplist, n.key.user_key = k ∧ n.key.timestamp ≤ ts ∧
        n.value = v ∧ n.key.operation = op ∧
        ∀ w ∈ m.skiplist, w.key.user_key = k → w.key.timestamp ≤ ts →
          w.key.timestamp ≤ n.key.timestamp
    | none => ∀ n ∈ m.skiplist, n.key.user_key = k → ts < n.key.timestamp :=
  skiplist_get_spec m.skiplist hsort hts64 k ts

/-- Witness for C1: a two-version MemTable read at an intermediate
timestamp sees the older version. -/
theorem memtable_get_mvcc_witness :
    MemTable.get ⟨[⟨⟨[107], 5, .Put⟩, [98]⟩, ⟨⟨[107], 1, .Put⟩, [97]⟩], 0, 1024⟩ [107] 3 =
      some ([97], .Put) ∧
    (∃ n ∈ ([⟨⟨[107], 5, .Put⟩, [98]⟩, ⟨⟨[107], 1, .Put⟩, [97]⟩] : List Node),
      n.key.user_key = [107] ∧ n.key.timestamp ≤ 3 ∧ n.value = [97] ∧
        n.key.operation = .Put ∧
        ∀ w ∈ ([⟨⟨[107], 5, .Put⟩, [98]⟩, ⟨⟨[107], 1, .Put⟩, [97]⟩] : List Node),
          w.key.user_key = [107] → w.key.timestamp ≤ 3 →
            w.key.timestamp ≤ n.key.timestamp) := by
  have hs : ([⟨⟨[107], 5, .Put⟩, [98]⟩, ⟨⟨[107], 1, .Put⟩, [97]⟩] : List Node).Pairwise
      nodeLt := by decide
  have h := memtable_get_mvcc ⟨[⟨⟨[107], 5, .Put⟩, [98]⟩, ⟨⟨[107], 1, .Put⟩, [97]⟩], 0, 1024⟩
    hs (by decide) [107] 3
  have hv : MemTable.get ⟨[⟨⟨[107], 5, .Put⟩, [98]⟩, ⟨⟨[107], 1, .Put⟩, [97]⟩], 0, 1024⟩
      [107] 3 = some ([97], .Put) := rfl
  rw [hv] at h
  exact ⟨hv, h⟩

/-- Specification of the forward walk of `SkipList::scan`: on a sorted
suffix, every emitted pair is a visible `Put` entry of maximal timestamp
`≤ ts` for its key, keys not in `seen` and below `end_key`, and the
emitted keys are strictly ascending. -/
theorem scanLoop_spec (b : Bytes) (ts : Nat) :
    ∀ (rest : List Node) (seen : List Bytes), rest.Pairwise nodeLt →
      (∀ kv ∈ SkipList.scanLoop b ts rest seen,
        kv.1 ∉ seen ∧ bytesCmp kv.1 b = .lt ∧
        ∃ n ∈ rest, n.key.user_key = kv.1 ∧ n.key.timestamp ≤ ts ∧
          n.key.operation = .Put ∧ n.value = kv.2 ∧
          ∀ w ∈ rest, w.key.user_key = kv.1 → w.key.timestamp ≤ ts →
            w.key.timestamp ≤ n.key.timestamp) ∧
      (SkipList.scanLoop b ts rest seen).Pairwise (fun x y => bytesCmp x.1 y.1 = .lt) := by
  intro rest
  induction rest with
  | nil =>
    intro seen _
    constructor
    · intro kv hkv; simp [SkipList.scanLoop] at hkv
    · simp [SkipList.scanLoop]
  | cons n rest ih =>
    intro seen hsort
    rw [List.pairwise_cons] at hsort
    by_cases hstop : bytesCmp n.key.user_key b ≠ .lt
    · have hres : SkipList.scanLoop b ts (n :: rest) seen = [] := by
        unfold SkipList.scanLoop
        rw [if_pos hstop]
      rw [hres]
      constructor
      · intro kv hkv; simp at hkv
      · simp
    · rw [not_not] at hstop
      -- maximality of the head among entries of its key in the tail
      have hmax_head : ∀ w ∈ rest, w.key.user_key = n.key.user_key →
          w.key.timestamp ≤ n.key.timestamp := by
        intro w hw hwk
        have hlt := hsort.1 w hw
        rw [nodeLt, InternalKey.compare_lt_iff] at hlt
        rcases hlt with hlt | ⟨_, hlt⟩
        · rw [hwk, bytesCmp_self] at hlt
          exact absurd hlt (by decide)
        · omega
      -- the user keys of tail entries are at or past the head's key
      have huk_tail : ∀ w ∈ rest, bytesCmp n.key.user_key w.key.user_key ≠ .gt := by
        intro w hw hcon
        have hlt := hsort.1 w hw
        rw [nodeLt, InternalKey.compare_lt_iff] at hlt
        rw [bytesCmp_gt_iff_lt] at hcon
        rcases hlt with hlt | ⟨heq, _⟩
        · have := bytesCmp_lt_trans hlt hcon
          rw [bytesCmp_self] at this
          exact absurd this (by decide)
        · rw [heq, bytesCmp_self] at hcon
          exact absurd hcon (by decide)
      by_cases hqual : n.key.timestamp ≤ ts ∧ n.key.user_key ∉ seen
      · by_cases hput : n.key.operation = .Put
        · have hres : SkipList.scanLoop b ts (n :: rest) seen =
              (n.key.user_key, n.value) ::
                SkipList.scanLoop b ts rest (n.key.user_key :: seen) := by
            unfold SkipList.scanLoop
            rw [if_neg (by simpa using hstop), if_pos hqual, if_pos hput]
            cases rest <;> rfl
          rw [hres]
          have ihh := ih (n.key.user_key :: seen) hsort.2
          constructor
          · intro kv hkv
            rcases List.mem_cons.mp hkv with rfl | hkv'
            · refine ⟨hqual.2, hstop, n, List.mem_cons_self _ _, rfl, hqual.1, hput, rfl, ?_⟩
              intro w hw hwk hwts
              rcases List.mem_cons.mp hw with rfl | hw'
              · exact le_refl _
              · exact hmax_head w hw' hwk
            · obtain ⟨hseen, hb, n', hn', h1, h2, h3, h4, h5⟩ := ihh.1 kv hkv'
              rw [List.mem_cons] at hseen
              push_neg at hseen
              refine ⟨hseen.2, hb, n', List.mem_cons_of_mem _ hn', h1, h2, h3, h4, ?_⟩
              intro w hw hwk hwts
              rcases List.mem_cons.mp hw with rfl | hw'
              · exact absurd hwk.symm hseen.1
              · exact h5 w hw' hwk hwts
          · rw [List.pairwise_cons]
            refine ⟨?_, ihh.2⟩
            intro kv hkv
            obtain ⟨hseen, _, n', hn', h1, _, _, _, _⟩ := ihh.1 kv hkv
            rw [List.mem_cons] at hseen
            push_neg at hseen
            have hne := huk_tail n' hn'
            rw [h1] at hne
            have h1neg : bytesCmp kv.1 n.key.user_key ≠ .lt := fun hc =>
              hne (bytesCmp_gt_iff_lt.mpr hc)
            exact bytesCmp_lt_of_not_lt_of_ne h1neg hseen.1
        · have hres : SkipList.scanLoop b ts (n :: rest) seen =
              SkipList.scanLoop b ts rest (n.key.user_key :: seen) := by
            unfold SkipList.scanLoop
            rw [if_neg (by simpa using hstop), if_pos hqual, if_neg hput]
            cases rest <;> rfl
          rw [hres]
          have ihh := ih (n.key.user_key :: seen) hsort.2
          constructor
          · intro kv hkv
            obtain ⟨hseen, hb, n', hn', h1, h2, h3, h4, h5⟩ := ihh.1 kv hkv
            rw [List.mem_cons] at hseen
            push_neg at hseen
            refine ⟨hseen.2, hb, n', List.mem_cons_of_mem _ hn', h1, h2, h3, h4, ?_⟩
            intro w hw hwk hwts
            rcases List.mem_cons.mp hw with rfl | hw'
            · exact absurd hwk (fun hc => hseen.1 hc.symm)
            · exact h5 w hw' hwk hwts
          · exact ihh.2
      · have hres : SkipList.scanLoop b ts (n :: rest) seen =
            SkipList.scanLoop b ts rest seen := by
          unfold SkipList.scanLoop
          rw [if_neg (by simpa using hstop), if_neg hqual]
          cases rest <;> rfl
        rw [hres]
        have ihh := ih seen hsort.2
        constructor
        · intro kv hkv
          obtain ⟨hseen, hb, n', hn', h1, h2, h3, h4, h5⟩ := ihh.1 kv hkv
          refine ⟨hseen, hb, n', List.mem_cons_of_mem _ hn', h1, h2, h3, h4, ?_⟩
          intro w hw hwk hwts
          rcases List.mem_cons.mp hw with rfl | hw'
          · exfalso
            rw [not_and_or] at hqual
            rcases hqual with hq | hq
            · exact hq hwts
            · rw [not_not] at hq
              rw [hwk] at hq
              exact hseen hq
          · exact h5 w hw' hwk hwts
        · exact ihh.2

/-- **C8.**  For all byte strings `a`, `b` and every timestamp `ts`:
`scan(a, b, ts)` returns pairs strictly sorted ascending by user key, at
most one pair per user key — the value of that key's newest version
`≤ ts` — excludes any key whose newest version `≤ ts` is a `Delete`
tombstone, and contains only keys `k` with `a ≤ k < b`. -/
theorem memtable_scan_spec (m : MemTable) (hsort : m.skiplist.Pairwise nodeLt)
    (a b : Bytes) (ts : Nat) :
    (∀ kv ∈ MemTable.scan m a b ts,
      bytesCmp kv.1 a ≠ .lt ∧ bytesCmp kv.1 b = .lt ∧
      ∃ n ∈ m.skiplist, n.key.user_key = kv.1 ∧ n.key.timestamp ≤ ts ∧
        n.key.operation = .Put ∧ n.value = kv.2 ∧
        ∀ w ∈ m.skiplist, w.key.user_key = kv.1 → w.key.timestamp ≤ ts →
          w.key.timestamp ≤ n.key.timestamp) ∧
    (MemTable.scan m a b ts).Pairwise (fun x y => bytesCmp x.1 y.1 = .lt) ∧
    (∀ d ∈ m.skiplist, d.key.timestamp ≤ ts → d.key.operation = .Delete →
      (∀ w ∈ m.skiplist, w.key.user_key = d.key.user_key → w.key.timestamp ≤ ts →
        w.key.timestamp ≤ d.key.timestamp) →
      ∀ kv ∈ MemTable.scan m a b ts, kv.1 ≠ d.key.user_key) := by
  have hscan : MemTable.scan m a b ts =
      SkipList.scanLoop b ts
        (m.skiplist.dropWhile fun n =>
          (InternalKey.mk a ts .Put).compare n.key == Ordering.gt) [] := rfl
  set l := m.skiplist with hl
  set sk : InternalKey := ⟨a, ts, .Put⟩ with hsk
  set p : Node → Bool := fun n => sk.compare n.key == Ordering.gt with hp
  have hp_iff : ∀ n, p n = true ↔ sk.compare n.key = .gt := fun n =>
    ordering_beq_iff _ _
  have hp_lt : ∀ n, p n = true ↔
      (bytesCmp n.key.user_key a = .lt ∨ (n.key.user_key = a ∧ ts < n.key.timestamp)) := by
    intro n
    rw [hp_iff, InternalKey.compare_gt_iff, InternalKey.compare_lt_iff]
  have hdrop : ∀ x ∈ l.dropWhile p, p x = false := by
    refine sorted_dropWhile_not ?_ l hsort
    intro x y hxy hpy
    rw [hp_iff] at hpy ⊢
    rw [InternalKey.compare_gt_iff] at hpy ⊢
    exact InternalKey.compare_lt_trans hxy hpy
  have hsub : (l.dropWhile p).Sublist l := List.dropWhile_sublist p
  have hrest_sorted : (l.dropWhile p).Pairwise nodeLt := hsort.sublist hsub
  have hqual_mem : ∀ w ∈ l, bytesCmp w.key.user_key a ≠ .lt → w.key.timestamp ≤ ts →
      w ∈ l.dropWhile p := by
    intro w hw hwa hwts
    have hsplit : l.takeWhile p ++ l.dropWhile p = l := List.takeWhile_append_dropWhile p l
    rw [← hsplit] at hw
    rcases List.mem_append.mp hw with hw' | hw'
    · exfalso
      have hpw : p w = true := List.mem_takeWhile_imp hw'
      rcases (hp_lt w).mp hpw with hc | ⟨_, hc⟩
      · exact hwa hc
      · omega
    · exact hw'
  have hspec := scanLoop_spec b ts (l.dropWhile p) [] hrest_sorted
  have hsound : ∀ kv ∈ MemTable.scan m a b ts,
      bytesCmp kv.1 a ≠ .lt ∧ bytesCmp kv.1 b = .lt ∧
      ∃ n ∈ l, n.key.user_key = kv.1 ∧ n.key.timestamp ≤ ts ∧
        n.key.operation = .Put ∧ n.value = kv.2 ∧
        ∀ w ∈ l, w.key.user_key = kv.1 → w.key.timestamp ≤ ts →
          w.key.timestamp ≤ n.key.timestamp := by
    intro kv hkv
    rw [hscan] at hkv
    obtain ⟨_, hb, n', hn', h1, h2, h3, h4, h5⟩ := hspec.1 kv hkv
    have hn'a : bytesCmp n'.key.user_key a ≠ .lt := by
      intro hc
      have := hdrop n' hn'
      rw [Bool.eq_false_iff] at this
      exact this ((hp_lt n').mpr (Or.inl hc))
    rw [h1] at hn'a
    refine ⟨hn'a, hb, n', hsub.subset hn', h1, h2, h3, h4, ?_⟩
    intro w hw hwk hwts
    have hwa : bytesCmp w.key.user_key a ≠ .lt := by rw [hwk]; exact hn'a
    exact h5 w (hqual_mem w hw hwa hwts) hwk hwts
  refine ⟨hsound, by rw [hscan]; exact hspec.2, ?_⟩
  intro d hd hdts hdop hdmax kv hkv hkvd
  obtain ⟨_, _, n', hn', h1, h2, h3, h4, h5⟩ := hsound kv hkv
  have hqd : d.key.user_key = kv.1 := hkvd.symm
  have hts_nd : n'.key.timestamp ≤ d.key.timestamp :=
    hdmax n' hn' (by rw [h1, ← hqd]) h2
  have hts_dn : d.key.timestamp ≤ n'.key.timestamp := h5 d hd hqd hdts
  have hR : List.Pairwise
      (fun x y : Node => ¬(x.key.user_key = y.key.user_key ∧
        x.key.timestamp = y.key.timestamp)) l := by
    refine hsort.imp ?_
    intro x y hxy hcon
    have : x.key.compare y.key = .eq := InternalKey.compare_eq_iff.mpr hcon
    rw [nodeLt, this] at hxy
    exact absurd hxy (by decide)
  by_cases hnd : n' = d
  · rw [hnd, hdop] at h3
    exact absurd h3 (by decide)
  · have hsymm : Symmetric (fun x y : Node => ¬(x.key.user_key = y.key.user_key ∧
        x.key.timestamp = y.key.timestamp)) := by
      intro x y hxy hcon
      exact hxy ⟨hcon.1.symm, hcon.2.symm⟩
    exact hR.forall hsymm hn' hd hnd ⟨by rw [h1, ← hqd], by omega⟩

/-- Witness for C8: scan over a concrete two-entry MemTable. -/
theorem memtable_scan_spec_witness :
    (MemTable.scan ⟨[⟨⟨[97], 1, .Put⟩, [65]⟩, ⟨⟨[98], 1, .Put⟩, [66]⟩], 0, 1024⟩
        [97] [99] 10).Pairwise (fun x y => bytesCmp x.1 y.1 = .lt) ∧
    (∀ kv ∈ MemTable.scan ⟨[⟨⟨[97], 1, .Put⟩, [65]⟩, ⟨⟨[98], 1, .Put⟩, [66]⟩], 0, 1024⟩
        [97] [99] 10, bytesCmp kv.1 [97] ≠ .lt ∧ bytesCmp kv.1 [99] = .lt) := by
  have h := memtable_scan_spec ⟨[⟨⟨[97], 1, .Put⟩, [65]⟩, ⟨⟨[98], 1, .Put⟩, [66]⟩], 0, 1024⟩
    (by decide) [97] [99] 10
  refine ⟨h.2.1, ?_⟩
  intro kv hkv
  obtain ⟨h1, h2, _⟩ := h.1 kv hkv
  exact ⟨h1, h2⟩

/-- When no entry of the chain shares the new `(user_key, timestamp)`,
the new node itself appears in the chain after `insertNode`. -/
theorem insertNode_mem_self {key : InternalKey} {value : Bytes} :
    ∀ {l : List Node}, l.Pairwise nodeLt →
      (∀ n ∈ l, ¬(n.key.user_key = key.user_key ∧ n.key.timestamp = key.timestamp)) →
      (⟨key, value⟩ : Node) ∈ SkipList.insertNode key value l := by
  intro l
  induction l with
  | nil => intro _ _; simp [SkipList.insertNode]
  | cons n rest ih =>
    intro hl hno
    rw [List.pairwise_cons] at hl
    unfold SkipList.insertNode
    cases hc : key.compare n.key with
    | gt =>
      exact List.mem_cons_of_mem _
        (ih hl.2 (fun w hw => hno w (List.mem_cons_of_mem _ hw)))
    | eq =>
      exfalso
      have hiff := InternalKey.compare_eq_iff.mp hc
      exact hno n (List.mem_cons_self _ _) ⟨hiff.1.symm, hiff.2.symm⟩
    | lt => exact List.mem_cons_self _ _

/-- Inserting an entry newer than every existing version of its key makes
it the entry returned by `get` at any read timestamp `≥ ts`. -/
theorem insert_get_fresh (l : List Node) (hsort : l.Pairwise nodeLt)
    (hts64 : ∀ n ∈ l, n.key.timestamp < 2 ^ 64)
    (key value : Bytes) (ts ts' : Nat) (op : Operation)
    (ht : ts < 2 ^ 64)
    (hfresh : ∀ n ∈ l, n.key.user_key = key → n.key.timestamp < ts)
    (hts' : ts ≤ ts') :
    SkipList.get (SkipList.insert l key value ts op) key ts' = some (value, op) := by
  set key_ik : InternalKey := ⟨key, ts, op⟩ with hki
  have hsort' : (SkipList.insert l key value ts op).Pairwise nodeLt :=
    insertNode_pairwise key_ik value l hsort
  have hts64' : ∀ n ∈ SkipList.insert l key value ts op, n.key.timestamp < 2 ^ 64 := by
    intro n hn
    rcases mem_insertNode hn with h | rfl
    · exact hts64 n h
    · exact ht
  have hnew : (⟨key_ik, value⟩ : Node) ∈ SkipList.insert l key value ts op := by
    refine insertNode_mem_self hsort ?_
    intro n hn hc
    have := hfresh n hn hc.1
    have hcts : n.key.timestamp = ts := hc.2
    omega
  have hspec := skiplist_get_spec (SkipList.insert l key value ts op) hsort' hts64' key ts'
  cases hval : SkipList.get (SkipList.insert l key value ts op) key ts' with
  | none =>
    rw [hval] at hspec
    have := hspec _ hnew rfl
    have hthis : ts' < ts := this
    omega
  | some vo =>
    rw [hval] at hspec
    obtain ⟨v, op'⟩ := vo
    obtain ⟨n, hn, h1, h2, h3, h4, h5⟩ := hspec
    rcases mem_insertNode hn with hold | rfl
    · exfalso
      have hlt := hfresh n hold h1
      have hge := h5 _ hnew rfl hts'
      have hge' : ts ≤ n.key.timestamp := hge
      omega
    · rw [← h3, ← h4]

/-- Counterexample to C9 as stated: starting from an empty MemTable of
capacity 0, `put("k","a",5)` returns `MemTableFull` (but inserts), and a
second `put("k","b",5)` also returns `MemTableFull` — yet the skip list
treats the equal `(key, timestamp)` as a duplicate and does not insert,
so `get("k",5)` still observes `("a", Put)`, not the just-rejected
`("b", Put)`. -/
theorem memtable_full_rejected_entry_not_observed :
    ((((MemTable.new 0).put [107] [97] 5).1.put [107] [98] 5)).2 = .error .MemTableFull ∧
    MemTable.get ((((MemTable.new 0).put [107] [97] 5).1.put [107] [98] 5)).1 [107] 5 =
      some ([97], .Put) :=
  ⟨rfl, rfl⟩

/-- **C9 (amended).**  Whenever `MemTable::put(key, value, ts)` or
`MemTable::delete(key, ts)` returns `Err(MemTableFull)`, the insert has
nonetheless already been applied to the underlying skip list (a no-op
when an entry with the same `(key, timestamp)` already exists) and the
memory-usage counter has already been incremented by the size estimate;
provided the MemTable held no entry for `key` with version `≥ ts`, a
subsequent `get(key, ts')` with `ts' ≥ ts` observes the just-rejected
entry.  The error is a flush signal, not a rejection — the state is not
left unchanged on error. -/
theorem memtable_full_insert_applied (m : MemTable) (key value : Bytes) (ts ts' : Nat)
    (hsort : m.skiplist.Pairwise nodeLt)
    (hts64 : ∀ n ∈ m.skiplist, n.key.timestamp < 2 ^ 64)
    (ht : ts < 2 ^ 64)
    (hfresh : ∀ n ∈ m.skiplist, n.key.user_key = key → n.key.timestamp < ts)
    (hts' : ts ≤ ts') :
    ((m.put key value ts).2 = .error .MemTableFull →
      (m.put key value ts).1.skiplist = SkipList.insert m.skiplist key value ts .Put ∧
      (m.put key value ts).1.memory_usage =
        m.memory_usage + (key.length + value.length + 64) ∧
      MemTable.get (m.put key value ts).1 key ts' = some (value, .Put)) ∧
    ((m.delete key ts).2 = .error .MemTableFull →
      (m.delete key ts).1.skiplist = SkipList.insert m.skiplist key [] ts .Delete ∧
      (m.delete key ts).1.memory_usage = m.memory_usage + (key.length + 64) ∧
      MemTable.get (m.delete key ts).1 key ts' = some ([], .Delete)) := by
  have hput1 : (m.put key value ts).1 =
      ⟨SkipList.insert m.skiplist key value ts .Put,
        m.memory_usage + (key.length + value.length + 64), m.max_size⟩ := by
    simp only [MemTable.put]
    split <;> rfl
  have hdel1 : (m.delete key ts).1 =
      ⟨SkipList.insert m.skiplist key [] ts .Delete,
        m.memory_usage + (key.length + 64), m.max_size⟩ := by
    simp only [MemTable.delete]
    split <;> rfl
  constructor
  · intro _
    rw [hput1]
    exact ⟨rfl, rfl,
      insert_get_fresh m.skiplist hsort hts64 key value ts ts' .Put ht hfresh hts'⟩
  · intro _
    rw [hdel1]
    exact ⟨rfl, rfl,
      insert_get_fresh m.skiplist hsort hts64 key [] ts ts' .Delete ht hfresh hts'⟩

/-- Witness for C9: the first put into a zero-capacity MemTable fails
with `MemTableFull` yet is observed by a subsequent read. -/
theorem memtable_full_insert_applied_witness :
    ((MemTable.new 0).put [107] [97] 5).2 = .error .MemTableFull ∧
    ((MemTable.new 0).put [107] [97] 5).1.memory_usage = 0 + (1 + 1 + 64) ∧
    MemTable.get ((MemTable.new 0).put [107] [97] 5).1 [107] 5 = some ([97], .Put) := by
  have h := (memtable_full_insert_applied (MemTable.new 0) [107] [97] 5 5
    (by decide) (by decide) (by decide) (by decide) (by decide)).1 rfl
  exact ⟨rfl, h.2.1, h.2.2⟩

/-- **C10.**  Skip-list insertion treats two internal keys with equal
user key and equal timestamp as duplicates regardless of operation or
value: (i) such an insert is a no-op even when the operation or value
differs; (ii) after `put(k, v, t)` a later `delete(k, t)` leaves
`(v, Put)` visible at timestamp `t`; (iii) every sorted chain (and
sortedness is preserved by insertion, part (iv)) contains at most one
entry per `(user_key, timestamp)` pair. -/
theorem skiplist_insert_dedup :
    (∀ (l : List Node) (uk v : Bytes) (ts : Nat) (op : Operation),
      l.Pairwise nodeLt →
      (∃ n ∈ l, n.key.user_key = uk ∧ n.key.timestamp = ts) →
      SkipList.insert l uk v ts op = l) ∧
    (∀ (k v : Bytes) (t : Nat), t < 2 ^ 64 →
      SkipList.get (SkipList.insert (SkipList.insert [] k v t .Put) k [] t .Delete) k t =
        some (v, .Put)) ∧
    (∀ (l : List Node), l.Pairwise nodeLt →
      l.Pairwise (fun x y => ¬(x.key.user_key = y.key.user_key ∧
        x.key.timestamp = y.key.timestamp))) ∧
    (∀ (l : List Node) (uk v : Bytes) (ts : Nat) (op : Operation), l.Pairwise nodeLt →
      (SkipList.insert l uk v ts op).Pairwise nodeLt) := by
  refine ⟨?_, ?_, ?_, ?_⟩
  · intro l uk v ts op hs hex
    exact insertNode_noop hs hex
  · intro k v t ht
    have h1 : SkipList.insert [] k v t .Put = [⟨⟨k, t, .Put⟩, v⟩] := rfl
    have h2 : SkipList.insert [⟨⟨k, t, .Put⟩, v⟩] k [] t .Delete =
        [⟨⟨k, t, .Put⟩, v⟩] := by
      have heq : (⟨k, t, .Delete⟩ : InternalKey).compare ⟨k, t, .Put⟩ = .eq :=
        InternalKey.compare_eq_iff.mpr ⟨rfl, rfl⟩
      unfold SkipList.insert SkipList.insertNode
      rw [heq]
    rw [h1, h2]
    have := insert_get_fresh [] (by simp) (by simp) k v t t .Put ht (by simp) (le_refl t)
    rw [h1] at this
    exact this
  · intro l hs
    refine hs.imp ?_
    intro x y hxy hcon
    have hceq : x.key.compare y.key = .eq := InternalKey.compare_eq_iff.mpr hcon
    rw [nodeLt, hceq] at hxy
    exact absurd hxy (by decide)
  · intro l uk v ts op hs
    exact insertNode_pairwise _ _ l hs

/-- Witness for C10: concrete duplicate-insert no-op and put-then-delete
visibility. -/
theorem skiplist_insert_dedup_witness :
    SkipList.insert [⟨⟨[107], 5, .Put⟩, [97]⟩] [107] [98] 5 .Delete =
      [⟨⟨[107], 5, .Put⟩, [97]⟩] ∧
    SkipList.get (SkipList.insert (SkipList.insert [] [107] [97] 5 .Put) [107] [] 5 .Delete)
      [107] 5 = some ([97], .Put) := by
  constructor
  · exact skiplist_insert_dedup.1 [⟨⟨[107], 5, .Put⟩, [97]⟩] [107] [98] 5 .Delete
      (by decide) (by decide)
  · exact skiplist_insert_dedup.2.1 [107] [97] 5 (by decide)

/-! ## SSTable types (`src/ferrisdb-storage/src/sstable/mod.rs`)

The writer and reader of this repository construct the SSTable
`InternalKey` with an operation tag as a third field; `mod.rs` declares
the tag on `SSTableEntry` and the `Ord` implementation ignores it either
way.  The embedding follows `mod.rs`: `SSTInternalKey` is
`(user_key, timestamp)` and the operation lives on the entry;
`write_entry`/`read_entry` serialize the entry's tag. -/

/-- `SSTABLE_MAGIC`: "FERRISDB" in ASCII. -/
def SSTABLE_MAGIC : Nat := 0x4645525249534442

/-- `DEFAULT_BLOCK_SIZE` (4 KiB). -/
def DEFAULT_BLOCK_SIZE : Nat := 4096

/-- `FOOTER_SIZE` in bytes. -/
def FOOTER_SIZE : Nat := 40

/-- `MAX_ENTRY_SIZE`: maximum key or value size (16 MiB). -/
def MAX_ENTRY_SIZE : Nat := 16 * 1024 * 1024

/-- The SSTable `InternalKey`: user key plus MVCC timestamp. -/
structure SSTInternalKey where
  user_key : Bytes
  timestamp : Nat
deriving DecidableEq, Repr

/-- `impl Ord for InternalKey` (sstable/mod.rs lines 154-166): user key
ascending, then timestamp descending. -/
def SSTInternalKey.cmp (self other : SSTInternalKey) : Ordering :=
  match bytesCmp self.user_key other.user_key with
  | .eq => natCmp other.timestamp self.timestamp
  | o => o

/-- An SSTable entry: internal key, value and operation tag. -/
structure SSTableEntry where
  key : SSTInternalKey
  value : Bytes
  operation : Operation
deriving DecidableEq, Repr

/-- `InternalKey::serialized_size`: `key_len + timestamp + key`. -/
def SSTInternalKey.serialized_size (k : SSTInternalKey) : Nat :=
  4 + 8 + k.user_key.length

/-- `SSTableEntry::serialized_size`: key + value_len + value + operation. -/
def SSTableEntry.serialized_size (e : SSTableEntry) : Nat :=
  e.key.serialized_size + 4 + e.value.length + 1

theorem SSTInternalKey.cmp_lt_iff {a b : SSTInternalKey} :
    a.cmp b = .lt ↔
      bytesCmp a.user_key b.user_key = .lt ∨
        (a.user_key = b.user_key ∧ b.timestamp < a.timestamp) := by
  unfold SSTInternalKey.cmp
  cases h : bytesCmp a.user_key b.user_key with
  | eq =>
    rw [bytesCmp_eq_iff] at h
    rw [natCmp_lt_iff]
    simp [h]
  | lt => simp [h]
  | gt =>
    have hne : a.user_key ≠ b.user_key := fun he => by
      rw [he, bytesCmp_self] at h; exact absurd h (by decide)
    simp [h, hne]

theorem SSTInternalKey.cmp_eq_iff {a b : SSTInternalKey} :
    a.cmp b = .eq ↔ a.user_key = b.user_key ∧ a.timestamp = b.timestamp := by
  unfold SSTInternalKey.cmp
  cases h : bytesCmp a.user_key b.user_key with
  | eq =>
    rw [bytesCmp_eq_iff] at h
    rw [natCmp_eq_iff]
    simp [h]
    omega
  | lt =>
    have hne : a.user_key ≠ b.user_key := fun he => by
      rw [he, bytesCmp_self] at h; exact absurd h (by decide)
    simp [hne]
  | gt =>
    have hne : a.user_key ≠ b.user_key := fun he => by
      rw [he, bytesCmp_self] at h; exact absurd h (by decide)
    simp [hne]

theorem SSTInternalKey.cmp_gt_iff {a b : SSTInternalKey} :
    a.cmp b = .gt ↔ b.cmp a = .lt := by
  unfold SSTInternalKey.cmp
  cases h : bytesCmp a.user_key b.user_key with
  | eq =>
    rw [bytesCmp_eq_iff] at h
    rw [h, bytesCmp_self, natCmp_gt_iff, natCmp_lt_iff]
  | lt =>
    rw [show bytesCmp b.user_key a.user_key = .gt from bytesCmp_gt_iff_lt.mpr h]
    simp
  | gt =>
    rw [show bytesCmp b.user_key a.user_key = .lt from bytesCmp_gt_iff_lt.mp h]
    simp

theorem SSTInternalKey.cmp_lt_trans {a b c : SSTInternalKey}
    (h1 : a.cmp b = .lt) (h2 : b.cmp c = .lt) : a.cmp c = .lt := by
  rw [SSTInternalKey.cmp_lt_iff] at h1 h2 ⊢
  rcases h1 with h1 | ⟨h1, h1'⟩ <;> rcases h2 with h2 | ⟨h2, h2'⟩
  · exact Or.inl (bytesCmp_lt_trans h1 h2)
  · exact Or.inl (h2 ▸ h1)
  · exact Or.inl (h1 ▸ h2)
  · exact Or.inr ⟨h1.trans h2, by omega⟩

/-- **C4.**  The internal-key comparison used by both the skip list and
the SSTable types is exactly: `(a_key, a_ver) < (b_key, b_ver)` iff
`a_key < b_key` lexicographically as unsigned bytes, or `a_key = b_key`
and `a_ver > b_ver` — and the two implementations return the same
`Ordering` on every pair (the skip list's operation tag never
participates). -/
theorem internal_key_order_agree :
    (∀ a b : SSTInternalKey,
      a.cmp b = .lt ↔
        (bytesCmp a.user_key b.user_key = .lt ∨
          (a.user_key = b.user_key ∧ b.timestamp < a.timestamp))) ∧
    (∀ (uk1 uk2 : Bytes) (t1 t2 : Nat) (op1 op2 : Operation),
      InternalKey.compare ⟨uk1, t1, op1⟩ ⟨uk2, t2, op2⟩ =
        SSTInternalKey.cmp ⟨uk1, t1⟩ ⟨uk2, t2⟩) := by
  constructor
  · intro a b
    exact SSTInternalKey.cmp_lt_iff
  · intro uk1 uk2 t1 t2 op1 op2
    unfold InternalKey.compare SSTInternalKey.cmp
    cases bytesCmp uk1 uk2 <;> try rfl
    cases natCmp t2 t1 <;> rfl

/-! ## SSTable writer (`src/ferrisdb-storage/src/sstable/writer.rs`)

The writer is modelled by the bytes written so far plus its in-memory
builder state.  `BufWriter` buffering and I/O errors are not modelled:
`file` is the byte string the writer has emitted. -/

/-- SSTable op-byte encoding: `Put = 0`, `Delete = 1` (the WAL uses
`1`/`2`; the two encodings differ in the source). -/
def sstOpByte : Operation → Nat
  | .Put => 0
  | .Delete => 1

/-- `SSTableWriter::write_entry`: key_len, value_len, timestamp,
operation, key, value. -/
def write_entry_bytes (e : SSTableEntry) : Bytes :=
  leBytes 4 e.key.user_key.length ++ leBytes 4 e.value.length ++
    leBytes 8 e.key.timestamp ++ [sstOpByte e.operation] ++ e.key.user_key ++ e.value

/-- The bytes of one data block: entry count (u32 LE), the entries in
order, and the placeholder checksum (4 zero bytes). -/
def block_bytes (entries : List SSTableEntry) : Bytes :=
  leBytes 4 entries.length ++ (entries.map write_entry_bytes).flatten ++ leBytes 4 0

/-- The placeholder bloom region: 8 zero bytes of bit array, a zero hash
count and a zero checksum (16 bytes total). -/
def bloom_bytes : Bytes := List.replicate 8 0 ++ leBytes 4 0 ++ leBytes 4 0

/-- The serialized index block: entry count, then
`(block_offset, key_len, key)` per entry, then the placeholder checksum. -/
def indexBytes (index : List (Nat × Bytes)) : Bytes :=
  leBytes 4 index.length ++
    (index.map fun ie => leBytes 8 ie.1 ++ leBytes 4 ie.2.length ++ ie.2).flatten ++
    leBytes 4 0

/-- `SSTableWriter` state. -/
structure SSTableWriter where
  file : Bytes
  file_offset : Nat
  current_block : List SSTableEntry
  current_block_size : Nat
  block_size : Nat
  index_entries : List (Nat × Bytes)
  entry_count : Nat
  smallest_key : Option SSTInternalKey
  largest_key : Option SSTInternalKey
  last_key : Option SSTInternalKey
  finished : Bool
deriving DecidableEq, Repr

/-- `SSTableWriter::new` / `with_block_size`. -/
def SSTableWriter.new (block_size : Nat) : SSTableWriter :=
  ⟨[], 0, [], 0, block_size, [], 0, none, none, none, false⟩

/-- `SSTableWriter::flush_block`: write the block header, entries and
checksum, record an index entry `(block_offset, first_key)`, clear the
block buffer. -/
def SSTableWriter.flush_block (w : SSTableWriter) : SSTableWriter :=
  match w.current_block with
  | [] => w
  | first :: _ =>
    let bytes := block_bytes w.current_block
    { w with
      file := w.file ++ bytes
      file_offset := w.file_offset + bytes.length
      index_entries := w.index_entries ++ [(w.file_offset, first.key.user_key)]
      current_block := []
      current_block_size := 0 }

/-- The Rust `key <= *last` test guarding `add` (`Ord`-derived `<=`):
true iff a last key exists and the new key does not compare greater. -/
def SSTableWriter.keyNotGreater (last_key : Option SSTInternalKey)
    (key : SSTInternalKey) : Bool :=
  match last_key with
  | some last => !(key.cmp last == Ordering.gt)
  | none => false

/-- Message of `ResourceConsumed` from the SSTable writer. -/
def sstFinishedMsg : String := "SSTable writer already finished"

/-- Message of `EmptyOperation` from `finish`. -/
def sstEmptyMsg : String := "Cannot finish SSTable with no entries"

/-- `SSTableWriter::add` (writer.rs lines 134-192): reject when finished,
when the key or value exceeds `MAX_ENTRY_SIZE`, or when the key is not
strictly greater than the last added key; otherwise update metadata,
flush the current block if the entry would overflow it, and buffer the
entry. -/
def SSTableWriter.add (w : SSTableWriter) (key : SSTInternalKey) (operation : Operation)
    (value : Bytes) : SSTableWriter × Except Error Unit :=
  if w.finished then (w, .error (.ResourceConsumed sstFinishedMsg))
  else if key.user_key.length > MAX_ENTRY_SIZE then
    (w, .error (.EntrySizeExceeded key.user_key.length MAX_ENTRY_SIZE))
  else if value.length > MAX_ENTRY_SIZE then
    (w, .error (.EntrySizeExceeded value.length MAX_ENTRY_SIZE))
  else if SSTableWriter.keyNotGreater w.last_key key then
    (w, .error .KeyOrderingViolation)
  else
    let entry : SSTableEntry := ⟨key, value, operation⟩
    let entry_size := entry.serialized_size
    let w1 := { w with
      smallest_key := match w.smallest_key with | none => some key | some s => some s
      largest_key := some key }
    let w2 :=
      if w1.current_block ≠ [] ∧ w1.current_block_size + entry_size > w1.block_size
      then w1.flush_block else w1
    ({ w2 with
      current_block := w2.current_block ++ [entry]
      current_block_size := w2.current_block_size + entry_size
      entry_count := w2.entry_count + 1
      last_key := some key }, .ok ())

/-- Metadata returned by `finish` (the filesystem path is not modelled). -/
structure SSTableInfo where
  file_size : Nat
  entry_count : Nat
  smallest_key : SSTInternalKey
  largest_key : SSTInternalKey
deriving DecidableEq, Repr

/-- `SSTableWriter::finish`: flush the remaining block, write the index
block, the bloom placeholder and the footer, and return the file bytes
with metadata; fail on a finished or empty writer. -/
def SSTableWriter.finish (w : SSTableWriter) : Except Error (Bytes × SSTableInfo) :=
  if w.finished then .error (.ResourceConsumed sstFinishedMsg)
  else
    let w1 := w.flush_block
    let index_offset := w1.file_offset
    let index_bytes := indexBytes w1.index_entries
    let w2 := { w1 with
      file := w1.file ++ index_bytes
      file_offset := w1.file_offset + index_bytes.length }
    let index_length := w2.file_offset - index_offset
    let bloom_offset := w2.file_offset
    let w3 := { w2 with
      file := w2.file ++ bloom_bytes
      file_offset := w2.file_offset + bloom_bytes.length }
    let bloom_length := w3.file_offset - bloom_offset
    let footer := leBytes 8 index_offset ++ leBytes 8 index_length ++
      leBytes 8 bloom_offset ++ leBytes 8 bloom_length ++ leBytes 8 SSTABLE_MAGIC
    let w4 := { w3 with
      file := w3.file ++ footer
      file_offset := w3.file_offset + footer.length }
    match w4.smallest_key, w4.largest_key with
    | some s, some l => .ok (w4.file, ⟨w4.file_offset, w4.entry_count, s, l⟩)
    | _, _ => .error (.EmptyOperation sstEmptyMsg)

theorem ordering_not_beq_iff (o : Ordering) : (!(o == Ordering.gt)) = true ↔ o ≠ .gt := by
  cases o <;> decide

theorem keyNotGreater_iff (lk : Option SSTInternalKey) (key : SSTInternalKey) :
    SSTableWriter.keyNotGreater lk key = true ↔
      ∃ last, lk = some last ∧ key.cmp last ≠ .gt := by
  cases lk with
  | none => simp [SSTableWriter.keyNotGreater]
  | some last =>
    unfold SSTableWriter.keyNotGreater
    rw [ordering_not_beq_iff]
    constructor
    · intro h; exact ⟨last, rfl, h⟩
    · rintro ⟨last', hl, h⟩
      injection hl with hl
      rw [hl]
      exact h

/-- Counterexample to C7 as stated: after adding `([1], 5)`, the key
`(0^(16 MiB + 1), 5)` is `≤` the last added key, yet `add` fails with
`EntrySizeExceeded`, not `KeyOrderingViolation` — the size check runs
first. -/
theorem sstable_add_oversized_not_ordering_error :
    ((SSTableWriter.new DEFAULT_BLOCK_SIZE).add ⟨[1], 5⟩ .Put [2]).1.last_key =
      some ⟨[1], 5⟩ ∧
    SSTInternalKey.cmp ⟨List.replicate (MAX_ENTRY_SIZE + 1) 0, 5⟩ ⟨[1], 5⟩ ≠ .gt ∧
    (((SSTableWriter.new DEFAULT_BLOCK_SIZE).add ⟨[1], 5⟩ .Put [2]).1.add
        ⟨List.replicate (MAX_ENTRY_SIZE + 1) 0, 5⟩ .Put []).2 =
      .error (.EntrySizeExceeded (MAX_ENTRY_SIZE + 1) MAX_ENTRY_SIZE) := by
  have hcmp : SSTInternalKey.cmp ⟨List.replicate (MAX_ENTRY_SIZE + 1) 0, 5⟩ ⟨[1], 5⟩ =
      .lt := by
    unfold SSTInternalKey.cmp
    have : bytesCmp (List.replicate (MAX_ENTRY_SIZE + 1) 0) [1] = .lt := by
      rw [show MAX_ENTRY_SIZE + 1 = MAX_ENTRY_SIZE + 1 from rfl, List.replicate_succ]
      rw [show bytesCmp (0 :: List.replicate MAX_ENTRY_SIZE 0) [1] =
        if (0 : Nat) < 1 then Ordering.lt
        else if (1 : Nat) < 0 then Ordering.gt
        else bytesCmp (List.replicate MAX_ENTRY_SIZE 0) [] from rfl]
      rw [if_pos (by omega)]
    rw [this]
  refine ⟨rfl, by rw [hcmp]; decide, ?_⟩
  have hlen : (List.replicate (MAX_ENTRY_SIZE + 1) (0 : Nat)).length = MAX_ENTRY_SIZE + 1 :=
    List.length_replicate _ _
  unfold SSTableWriter.add
  rw [if_neg (by decide)]
  rw [if_pos (by rw [hlen]; omega)]
  rw [hlen]

/-- **C7 (amended).**  For every unfinished `SSTableWriter` state (Rust's
move semantics make `add` on a finished writer unrepresentable: `finish`
consumes the writer) and every internal key `K` with accompanying value:
`add` fails with `KeyOrderingViolation` iff `|K.user_key|` and `|value|`
are within `MAX_ENTRY_SIZE` (oversized inputs fail with
`EntrySizeExceeded` first), some entry was added earlier, and `K ≤` the
last-added internal key under the internal-key order.  In particular
re-adding the same user key with a newer version fails, and when
`K >` last-added no `KeyOrderingViolation` is raised. -/
theorem sstable_add_ordering_iff (w : SSTableWriter) (key : SSTInternalKey)
    (op : Operation) (value : Bytes) (hfin : w.finished = false) :
    (w.add key op value).2 = .error .KeyOrderingViolation ↔
      (key.user_key.length ≤ MAX_ENTRY_SIZE ∧ value.length ≤ MAX_ENTRY_SIZE ∧
        ∃ last, w.last_key = some last ∧ key.cmp last ≠ .gt) := by
  unfold SSTableWriter.add
  rw [if_neg (by rw [hfin]; exact Bool.false_ne_true)]
  by_cases hk : key.user_key.length > MAX_ENTRY_SIZE
  · rw [if_pos hk]
    constructor
    · intro h
      exact absurd h (by simp)
    · intro h
      omega
  · rw [if_neg hk]
    by_cases hv : value.length > MAX_ENTRY_SIZE
    · rw [if_pos hv]
      constructor
      · intro h
        exact absurd h (by simp)
      · intro h
        omega
    · rw [if_neg hv]
      by_cases hord : SSTableWriter.keyNotGreater w.last_key key = true
      · rw [if_pos hord]
        simp only [and_iff_right (by omega : key.user_key.length ≤ MAX_ENTRY_SIZE),
          and_iff_right (by omega : value.length ≤ MAX_ENTRY_SIZE)]
        rw [← keyNotGreater_iff]
        simp [hord]
      · rw [if_neg hord]
        constructor
        · intro h
          exact absurd h (by simp)
        · rintro ⟨_, _, last, hl, hne⟩
          exact absurd ((keyNotGreater_iff w.last_key key).mpr ⟨last, hl, hne⟩) hord

/-- Witness for C7: re-adding the same user key with a newer version
fails with `KeyOrderingViolation`. -/
theorem sstable_add_ordering_iff_witness :
    (((SSTableWriter.new DEFAULT_BLOCK_SIZE).add ⟨[1], 5⟩ .Put [2]).1.add
        ⟨[1], 6⟩ .Put [3]).2 = .error .KeyOrderingViolation := by
  exact (sstable_add_ordering_iff
    ((SSTableWriter.new DEFAULT_BLOCK_SIZE).add ⟨[1], 5⟩ .Put [2]).1
    ⟨[1], 6⟩ .Put [3] rfl).mpr
    ⟨by decide, by decide, ⟨[1], 5⟩, rfl, by decide⟩

/-! ## SSTable reader (`src/ferrisdb-storage/src/sstable/reader.rs`)

The reader is modelled by the file bytes plus the parsed index.  The
block cache only memoizes `read_block`'s pure result and is omitted;
`read_exact` hitting end-of-file is modelled as `Error.Io`. -/

/-- SSTable `Footer` metadata (sstable/mod.rs lines 232-243). -/
structure Footer where
  index_offset : Nat
  index_length : Nat
  bloom_offset : Nat
  bloom_length : Nat
  magic : Nat
deriving DecidableEq, Repr

/-- Message of `InvalidFormat` for a wrong footer buffer size. -/
def footerSizeMsg : String := "Invalid footer size"

/-- Message of `InvalidFormat` for a wrong magic number (the source
formats the expected and found values into the string; the values are
dropped here). -/
def footerMagicMsg : String := "Invalid magic number"

/-- Message of `InvalidFormat` for a file shorter than the footer. -/
def fileTooSmallMsg : String := "File too small to contain footer"

/-- `Footer::from_bytes`. -/
def Footer.from_bytes (bytes : Bytes) : Except Error Footer :=
  if bytes.length ≠ FOOTER_SIZE then .error (.InvalidFormat footerSizeMsg)
  else
    let magic := readLE ((bytes.drop 32).take 8)
    if magic ≠ SSTABLE_MAGIC then .error (.InvalidFormat footerMagicMsg)
    else .ok ⟨readLE (bytes.take 8), readLE ((bytes.drop 8).take 8),
      readLE ((bytes.drop 16).take 8), readLE ((bytes.drop 24).take 8), magic⟩

/-- `SSTableReader::read_footer`: the last 40 bytes of the file. -/
def read_footer (file : Bytes) : Except Error Footer :=
  if file.length < FOOTER_SIZE then .error (.InvalidFormat fileTooSmallMsg)
  else Footer.from_bytes (file.drop (file.length - FOOTER_SIZE))

/-- Parse `n` index entries `(block_offset, key)` from a byte cursor. -/
def readIndexLoop : Nat → Bytes → Except Error (List (Nat × Bytes) × Bytes)
  | 0, bytes => .ok ([], bytes)
  | n + 1, bytes =>
    if bytes.length < 8 then .error .Io
    else
      let block_offset := readLE (bytes.take 8)
      let b1 := bytes.drop 8
      if b1.length < 4 then .error .Io
      else
        let key_len := readLE (b1.take 4)
        let b2 := b1.drop 4
        if b2.length < key_len then .error .Io
        else
          match readIndexLoop n (b2.drop key_len) with
          | .ok (rest, remaining) => .ok ((block_offset, b2.take key_len) :: rest, remaining)
          | .error e => .error e

/-- `SSTableReader::read_index`: entry count, entries, then the trailing
checksum is read but not validated. -/
def read_index (file : Bytes) (footer : Footer) : Except Error (List (Nat × Bytes)) :=
  let bytes := file.drop footer.index_offset
  if bytes.length < 4 then .error .Io
  else
    match readIndexLoop (readLE (bytes.take 4)) (bytes.drop 4) with
    | .ok (entries, remaining) =>
      if remaining.length < 4 then .error .Io else .ok entries
    | .error e => .error e

/-- `SSTableReader` state: file bytes and parsed index. -/
structure SSTableReader where
  file : Bytes
  index : List (Nat × Bytes)
deriving DecidableEq, Repr

/-- `SSTableReader::open`: read the footer, then the index. -/
def SSTableReader.open (file : Bytes) : Except Error SSTableReader :=
  match read_footer file with
  | .error e => .error e
  | .ok footer =>
    match read_index file footer with
    | .error e => .error e
    | .ok index => .ok ⟨file, index⟩

/-- Message of `InvalidFormat` for a bad op byte. -/
def invalidOpByteMsg : String := "Invalid operation byte"

/-- `SSTableReader::read_entry`: key_len, value_len, timestamp, op byte
(`0 = Put`, `1 = Delete`, otherwise `InvalidFormat`), key, value. -/
def read_entry (bytes : Bytes) : Except Error (SSTableEntry × Bytes) :=
  if bytes.length < 4 then .error .Io
  else
    let key_len := readLE (bytes.take 4)
    let b1 := bytes.drop 4
    if b1.length < 4 then .error .Io
    else
      let value_len := readLE (b1.take 4)
      let b2 := b1.drop 4
      if b2.length < 8 then .error .Io
      else
        let timestamp := readLE (b2.take 8)
        match b2.drop 8 with
        | [] => .error .Io
        | op_byte :: b4 =>
          match (if op_byte = 0 then some Operation.Put
                 else if op_byte = 1 then some Operation.Delete else none) with
          | none => .error (.InvalidFormat invalidOpByteMsg)
          | some operation =>
            if b4.length < key_len then .error .Io
            else
              let user_key := b4.take key_len
              let b5 := b4.drop key_len
              if b5.length < value_len then .error .Io
              else .ok (⟨⟨user_key, timestamp⟩, b5.take value_len, operation⟩,
                b5.drop value_len)

/-- Parse `n` entries from a byte cursor. -/
def readEntriesLoop : Nat → Bytes → Except Error (List SSTableEntry × Bytes)
  | 0, bytes => .ok ([], bytes)
  | n + 1, bytes =>
    match read_entry bytes with
    | .error e => .error e
    | .ok (entry, rest) =>
      match readEntriesLoop n rest with
      | .error e => .error e
      | .ok (entries, remaining) => .ok (entry :: entries, remaining)

/-- `SSTableReader::read_block`: seek to the offset, read the entry
count, the entries, and the (unvalidated) checksum. -/
def SSTableReader.read_block (r : SSTableReader) (block_offset : Nat) :
    Except Error (List SSTableEntry) :=
  let bytes := r.file.drop block_offset
  if bytes.length < 4 then .error .Io
  else
    match readEntriesLoop (readLE (bytes.take 4)) (bytes.drop 4) with
    | .ok (entries, remaining) =>
      if remaining.length < 4 then .error .Io else .ok entries
    | .error e => .error e

/-- The scan of `find_block_for_key`: remember the last index entry whose
`first_key ≤ user_key`, stopping at the first that is greater. -/
def find_block_loop (user_key : Bytes) : List (Nat × Bytes) → Option Nat → Option Nat
  | [], result => result
  | (off, first_key) :: rest, result =>
    if bytesCmp first_key user_key ≠ .gt then
      find_block_loop user_key rest (some off)
    else result

/-- `SSTableReader::find_block_for_key`: the last index entry whose
`first_key ≤ user_key`, else the first block; `none` only when the index
is empty. -/
def SSTableReader.find_block_for_key (r : SSTableReader) (user_key : Bytes) : Option Nat :=
  match r.index with
  | [] => none
  | (off0, _) :: _ =>
    match find_block_loop user_key r.index none with
    | some off => some off
    | none => some off0

/-- The forward version scan of `get_latest` from the partition point:
return the first entry of the sought user key with timestamp
`≤ max_timestamp`. -/
def get_latest_loop (user_key : Bytes) (max_timestamp : Nat) :
    List SSTableEntry → Option (Bytes × Nat × Operation)
  | [] => none
  | e :: rest =>
    if e.key.user_key ≠ user_key then none
    else if e.key.timestamp ≤ max_timestamp then
      some (e.value, e.key.timestamp, e.operation)
    else get_latest_loop user_key max_timestamp rest

/-- `SSTableReader::get_latest`: locate the candidate block via the
index, load it, position at the first entry whose user key is not below
the target (`partition_point`, equal to `dropWhile` on a sorted block),
then scan the versions. -/
def SSTableReader.get_latest (r : SSTableReader) (user_key : Bytes) (max_timestamp : Nat) :
    Except Error (Option (Bytes × Nat × Operation)) :=
  match r.find_block_for_key user_key with
  | none => .ok none
  | some block_offset =>
    match r.read_block block_offset with
    | .error e => .error e
    | .ok entries =>
      .ok (get_latest_loop user_key max_timestamp
        (entries.dropWhile fun e => bytesCmp e.key.user_key user_key == Ordering.lt))

/-- The unbounded `SSTableIterator` (`iter()`): the entries of each
indexed block, in index order; an `Err` item aborts the collection as
the Rust caller would stop at the first error. -/
def iterBlocksLoop (r : SSTableReader) : List (Nat × Bytes) → Except Error (List SSTableEntry)
  | [] => .ok []
  | (off, _) :: rest =>
    match r.read_block off with
    | .error e => .error e
    | .ok entries =>
      match iterBlocksLoop r rest with
      | .error e => .error e
      | .ok more => .ok (entries ++ more)

/-- All entries yielded by `iter()`. -/
def SSTableReader.iterAll (r : SSTableReader) : Except Error (List SSTableEntry) :=
  iterBlocksLoop r r.index

/-- The strict order on SSTable entries induced by the internal-key
order; blocks written by `SSTableWriter` are sorted by it. -/
abbrev entryLt (a b : SSTableEntry) : Prop := a.key.cmp b.key = .lt

/-- Specification of the version scan of `get_latest` from the partition
point: on a sorted suffix whose members are all at or past the sought
user key, it returns the qualifying entry with the greatest timestamp,
or `none`. -/
theorem get_latest_loop_spec (k : Bytes) (cap : Nat) :
    ∀ (rest : List SSTableEntry), rest.Pairwise entryLt →
      (∀ e ∈ rest, bytesCmp e.key.user_key k ≠ .lt) →
      match get_latest_loop k cap rest with
      | some (v, t, op) => ∃ e ∈ rest, e.key.user_key = k ∧ e.key.timestamp ≤ cap ∧
          e.value = v ∧ e.key.timestamp = t ∧ e.operation = op ∧
          ∀ w ∈ rest, w.key.user_key = k → w.key.timestamp ≤ cap →
            w.key.timestamp ≤ e.key.timestamp
      | none => ∀ e ∈ rest, e.key.user_key = k → cap < e.key.timestamp := by
  intro rest
  induction rest with
  | nil =>
    intro _ _
    simp [get_latest_loop]
  | cons e rest ih =>
    intro hsort hfront
    rw [List.pairwise_cons] at hsort
    by_cases hne : e.key.user_key = k
    · by_cases hts : e.key.timestamp ≤ cap
      · have hres : get_latest_loop k cap (e :: rest) =
            some (e.value, e.key.timestamp, e.operation) := by
          unfold get_latest_loop
          rw [if_neg (by simpa using hne), if_pos hts]
        rw [hres]
        refine ⟨e, List.mem_cons_self _ _, hne, hts, rfl, rfl, rfl, ?_⟩
        intro w hw hwk hwts
        rcases List.mem_cons.mp hw with rfl | hw'
        · exact le_refl _
        · have hlt := hsort.1 w hw'
          rw [entryLt, SSTInternalKey.cmp_lt_iff] at hlt
          rcases hlt with hlt | ⟨_, hlt⟩
          · rw [hne, hwk, bytesCmp_self] at hlt
            exact absurd hlt (by decide)
          · omega
      · have hres : get_latest_loop k cap (e :: rest) = get_latest_loop k cap rest := by
          unfold get_latest_loop
          rw [if_neg (by simpa using hne), if_neg hts]
          cases rest <;> rfl
        rw [hres]
        have ihh := ih hsort.2 (fun w hw => hfront w (List.mem_cons_of_mem _ hw))
        cases hval : get_latest_loop k cap rest with
        | some vto =>
          rw [hval] at ihh
          obtain ⟨v, t, op⟩ := vto
          obtain ⟨e', he', h1, h2, h3, h4, h5, h6⟩ := ihh
          refine ⟨e', List.mem_cons_of_mem _ he', h1, h2, h3, h4, h5, ?_⟩
          intro w hw hwk hwts
          rcases List.mem_cons.mp hw with rfl | hw'
          · omega
          · exact h6 w hw' hwk hwts
        | none =>
          rw [hval] at ihh
          intro w hw hwk
          rcases List.mem_cons.mp hw with rfl | hw'
          · omega
          · exact ihh w hw' hwk
    · have hres : get_latest_loop k cap (e :: rest) = none := by
        unfold get_latest_loop
        rw [if_pos (by simpa using hne)]
      rw [hres]
      intro w hw hwk
      exfalso
      have hkn : bytesCmp k e.key.user_key = .lt :=
        bytesCmp_lt_of_not_lt_of_ne (hfront e (List.mem_cons_self _ _)) (fun he => hne he)
      rcases List.mem_cons.mp hw with rfl | hw'
      · exact hne hwk
      · have hlt := hsort.1 w hw'
        rw [entryLt, SSTInternalKey.cmp_lt_iff] at hlt
        rcases hlt with hlt | ⟨heq, _⟩
        · have hc := bytesCmp_lt_trans hkn hlt
          rw [hwk, bytesCmp_self] at hc
          exact absurd hc (by decide)
        · rw [heq, hwk, bytesCmp_self] at hkn
          exact absurd hkn (by decide)

set_option maxRecDepth 10000

/-- A hand-crafted index for an openable SSTable file whose index first
keys do not describe its blocks: `open` validates only the magic number
and the index framing, so such files parse. -/
def craftedIndex : List (Nat × Bytes) := [(0, [98]), (27, [122])]

/-- An openable SSTable file with two data blocks; the second block
holds the only entry for user key `[97]`, but both index first keys
(`[98]`, `[122]`) are greater than `[97]`, so `find_block_for_key`
falls back to the first block. -/
def craftedFile : Bytes :=
  block_bytes [⟨⟨[98], 1⟩, [120], .Put⟩] ++ block_bytes [⟨⟨[97], 5⟩, [121], .Put⟩] ++
    indexBytes craftedIndex ++ bloom_bytes ++
    (leBytes 8 54 ++ leBytes 8 30 ++ leBytes 8 84 ++ leBytes 8 16 ++
      leBytes 8 SSTABLE_MAGIC)

/-- **C5.**  For every opened SSTable, user key `k` and cap `cap`:
`get_latest(k, cap)` consults only the single candidate block chosen by
the index (`None` only when the index is empty — when the index is
nonempty, `find_block_for_key` always chooses a block: the last index
entry with `first_key ≤ k`, else the first block) and returns the
`(value, version, op)` of the entry for `k` with the largest version
`≤ cap` within that block, or `None` if that block holds no such entry —
returning `None` even when a qualifying entry for `k` exists in a later
block, as the concrete openable file `craftedFile` exhibits. -/
theorem sstable_get_latest_single_block :
    (∀ (r : SSTableReader) (k : Bytes) (cap : Nat), r.index = [] →
      r.get_latest k cap = .ok none) ∧
    (∀ (r : SSTableReader) (k : Bytes), r.index ≠ [] →
      (r.find_block_for_key k).isSome) ∧
    (∀ (r : SSTableReader) (k : Bytes) (cap off : Nat) (entries : List SSTableEntry),
      r.find_block_for_key k = some off →
      r.read_block off = .ok entries →
      entries.Pairwise entryLt →
      (∀ v t op, r.get_latest k cap = .ok (some (v, t, op)) →
        ∃ e ∈ entries, e.key.user_key = k ∧ e.key.timestamp ≤ cap ∧
          e.value = v ∧ e.key.timestamp = t ∧ e.operation = op ∧
          ∀ w ∈ entries, w.key.user_key = k → w.key.timestamp ≤ cap →
            w.key.timestamp ≤ e.key.timestamp) ∧
      (r.get_latest k cap = .ok none →
        ∀ e ∈ entries, e.key.user_key = k → cap < e.key.timestamp)) ∧
    (SSTableReader.open craftedFile = .ok ⟨craftedFile, craftedIndex⟩ ∧
      (SSTableReader.mk craftedFile craftedIndex).get_latest [97] 10 = .ok none ∧
      (SSTableReader.mk craftedFile craftedIndex).read_block 27 =
        .ok [⟨⟨[97], 5⟩, [121], .Put⟩]) := by
  refine ⟨?_, ?_, ?_, rfl, rfl, rfl⟩
  · intro r k cap hidx
    have hf : r.find_block_for_key k = none := by
      unfold SSTableReader.find_block_for_key
      rw [hidx]
    simp only [SSTableReader.get_latest, hf]
  · intro r k hidx
    unfold SSTableReader.find_block_for_key
    cases hi : r.index with
    | nil => exact absurd hi hidx
    | cons e rest =>
      obtain ⟨off0, fk0⟩ := e
      cases find_block_loop k ((off0, fk0) :: rest) none <;> rfl
  · intro r k cap off entries hfind hread hsort
    have hL : r.get_latest k cap =
        .ok (get_latest_loop k cap
          (entries.dropWhile fun e => bytesCmp e.key.user_key k == Ordering.lt)) := by
      simp only [SSTableReader.get_latest, hfind, hread]
    set p : SSTableEntry → Bool := fun e => bytesCmp e.key.user_key k == Ordering.lt
      with hp
    have hp_iff : ∀ e, p e = true ↔ bytesCmp e.key.user_key k = .lt := fun e =>
      ordering_beq_iff _ _
    have hdrop : ∀ x ∈ entries.dropWhile p, p x = false := by
      refine sorted_dropWhile_not ?_ entries hsort
      intro x y hxy hpy
      rw [hp_iff] at hpy ⊢
      rw [entryLt, SSTInternalKey.cmp_lt_iff] at hxy
      rcases hxy with hxy | ⟨hxy, _⟩
      · exact bytesCmp_lt_trans hxy hpy
      · rw [hxy]; exact hpy
    have hsub : (entries.dropWhile p).Sublist entries := List.dropWhile_sublist p
    have hfront : ∀ e ∈ entries.dropWhile p, bytesCmp e.key.user_key k ≠ .lt := by
      intro e he hc
      have := hdrop e he
      rw [Bool.eq_false_iff] at this
      exact this ((hp_iff e).mpr hc)
    have hqual_mem : ∀ w ∈ entries, w.key.user_key = k → w ∈ entries.dropWhile p := by
      intro w hw hwk
      have hsplit : entries.takeWhile p ++ entries.dropWhile p = entries :=
        List.takeWhile_append_dropWhile p entries
      rw [← hsplit] at hw
      rcases List.mem_append.mp hw with hw' | hw'
      · exfalso
        have hpw : p w = true := List.mem_takeWhile_imp hw'
        rw [hp_iff, hwk, bytesCmp_self] at hpw
        exact absurd hpw (by decide)
      · exact hw'
    have hspec := get_latest_loop_spec k cap (entries.dropWhile p) (hsort.sublist hsub)
      hfront
    constructor
    · intro v t op h
      rw [hL] at h
      injection h with h
      rw [h] at hspec
      obtain ⟨e, he, h1, h2, h3, h4, h5, h6⟩ := hspec
      refine ⟨e, hsub.subset he, h1, h2, h3, h4, h5, ?_⟩
      intro w hw hwk hwts
      exact h6 w (hqual_mem w hw hwk) hwk hwts
    · intro h e he hek
      rw [hL] at h
      injection h with h
      rw [h] at hspec
      exact hspec e (hqual_mem e he hek) hek

/-- Witness for C5: the single-block characterization applied to a
concrete one-block reader. -/
theorem sstable_get_latest_single_block_witness :
    ∃ e ∈ [(⟨⟨[97], 5⟩, [121], .Put⟩ : SSTableEntry)], e.key.user_key = [97] ∧
      e.key.timestamp ≤ 10 ∧ e.value = [121] ∧ e.key.timestamp = 5 ∧
      e.operation = .Put ∧
      ∀ w ∈ [(⟨⟨[97], 5⟩, [121], .Put⟩ : SSTableEntry)], w.key.user_key = [97] →
        w.key.timestamp ≤ 10 → w.key.timestamp ≤ e.key.timestamp := by
  exact (sstable_get_latest_single_block.2.2.1
    ⟨block_bytes [⟨⟨[97], 5⟩, [121], .Put⟩], [(0, [97])]⟩ [97] 10 0
    [⟨⟨[97], 5⟩, [121], .Put⟩] rfl rfl (by decide)).1 [121] 5 .Put rfl

/-! ## Write(E) then Open/iter: parsing round-trips -/

theorem read_entry_spec (e : SSTableEntry) (rest : Bytes)
    (hk : e.key.user_key.length < 2 ^ 32) (hv : e.value.length < 2 ^ 32)
    (ht : e.key.timestamp < 2 ^ 64) :
    read_entry (write_entry_bytes e ++ rest) = .ok (e, rest) := by
  obtain ⟨⟨uk, ts⟩, v, op⟩ := e
  simp only at hk hv ht
  have h2to32 : (256 : Nat) ^ 4 = 2 ^ 32 := by norm_num
  have h2to64 : (256 : Nat) ^ 8 = 2 ^ 64 := by norm_num
  unfold write_entry_bytes read_entry
  simp only [List.append_assoc]
  have hlen1 : (leBytes 4 uk.length ++ (leBytes 4 v.length ++ (leBytes 8 ts ++
      ([sstOpByte op] ++ (uk ++ (v ++ rest)))))).length =
      17 + uk.length + v.length + rest.length := by
    simp; omega
  rw [if_neg (by rw [hlen1]; omega)]
  rw [take_leBytes_append, drop_leBytes_append]
  rw [readLE_leBytes_of_lt (by rw [h2to32]; omega)]
  have hlen2 : (leBytes 4 v.length ++ (leBytes 8 ts ++
      ([sstOpByte op] ++ (uk ++ (v ++ rest))))).length =
      13 + uk.length + v.length + rest.length := by
    simp; omega
  rw [if_neg (by rw [hlen2]; omega)]
  rw [take_leBytes_append, drop_leBytes_append]
  rw [readLE_leBytes_of_lt (by rw [h2to32]; omega)]
  have hlen3 : (leBytes 8 ts ++ ([sstOpByte op] ++ (uk ++ (v ++ rest)))).length =
      9 + uk.length + v.length + rest.length := by
    simp; omega
  rw [if_neg (by rw [hlen3]; omega)]
  rw [take_leBytes_append, drop_leBytes_append]
  rw [readLE_leBytes_of_lt (by rw [h2to64]; exact ht)]
  rw [List.singleton_append]
  simp only []
  have hopb : (if sstOpByte op = 0 then some Operation.Put
      else if sstOpByte op = 1 then some Operation.Delete else none) = some op := by
    cases op <;> simp [sstOpByte]
  rw [hopb]
  simp only []
  have hlen4 : (uk ++ (v ++ rest)).length = uk.length + v.length + rest.length := by
    simp; omega
  rw [if_neg (by rw [hlen4]; omega)]
  rw [take_append_left _ _ rfl, drop_append_left _ _ rfl]
  have hlen5 : (v ++ rest).length = v.length + rest.length := by simp
  rw [if_neg (by rw [hlen5]; omega)]
  rw [take_append_left _ _ rfl, drop_append_left _ _ rfl]

theorem readEntriesLoop_spec :
    ∀ (es : List SSTableEntry) (rest : Bytes),
      (∀ e ∈ es, e.key.user_key.length < 2 ^ 32 ∧ e.value.length < 2 ^ 32 ∧
        e.key.timestamp < 2 ^ 64) →
      readEntriesLoop es.length ((es.map write_entry_bytes).flatten ++ rest) =
        .ok (es, rest) := by
  intro es
  induction es with
  | nil => intro rest _; simp [readEntriesLoop]
  | cons e es ih =>
    intro rest hb
    have he := hb e (List.mem_cons_self _ _)
    have hlen : (e :: es).length = es.length + 1 := rfl
    rw [hlen]
    unfold readEntriesLoop
    rw [List.map_cons, List.flatten_cons, List.append_assoc]
    rw [read_entry_spec e _ he.1 he.2.1 he.2.2]
    simp only []
    rw [ih rest (fun x hx => hb x (List.mem_cons_of_mem _ hx))]

theorem read_block_spec (file : Bytes) (index : List (Nat × Bytes)) (off : Nat)
    (b : List SSTableEntry) (suffix : Bytes)
    (hdrop : file.drop off = block_bytes b ++ suffix)
    (hsz : ∀ e ∈ b, e.key.user_key.length < 2 ^ 32 ∧ e.value.length < 2 ^ 32 ∧
      e.key.timestamp < 2 ^ 64)
    (hcount : b.length < 2 ^ 32) :
    SSTableReader.read_block ⟨file, index⟩ off = .ok b := by
  have h2to32 : (256 : Nat) ^ 4 = 2 ^ 32 := by norm_num
  unfold SSTableReader.read_block
  simp only []
  rw [hdrop]
  unfold block_bytes
  rw [List.append_assoc, List.append_assoc]
  have hlen : (leBytes 4 b.length ++ ((b.map write_entry_bytes).flatten ++
      (leBytes 4 0 ++ suffix))).length =
      4 + ((b.map write_entry_bytes).flatten).length + 4 + suffix.length := by
    simp; omega
  rw [if_neg (by rw [hlen]; omega)]
  rw [take_leBytes_append, drop_leBytes_append]
  rw [readLE_leBytes_of_lt (by rw [h2to32]; omega)]
  rw [readEntriesLoop_spec b (leBytes 4 0 ++ suffix) hsz]
  simp only []
  rw [if_neg (by simp)]

theorem readIndexLoop_spec :
    ∀ (index : List (Nat × Bytes)) (rest : Bytes),
      (∀ ie ∈ index, ie.1 < 2 ^ 64) →
      (∀ ie ∈ index, ie.2.length < 2 ^ 32) →
      readIndexLoop index.length
        ((index.map fun ie => leBytes 8 ie.1 ++ leBytes 4 ie.2.length ++ ie.2).flatten ++
          rest) = .ok (index, rest) := by
  intro index
  induction index with
  | nil => intro rest _ _; simp [readIndexLoop]
  | cons ie index ih =>
    intro rest hoff hkey
    obtain ⟨off, fk⟩ := ie
    have hoff1 : off < 2 ^ 64 := hoff _ (List.mem_cons_self _ _)
    have hkey1 : fk.length < 2 ^ 32 := hkey _ (List.mem_cons_self _ _)
    have h2to32 : (256 : Nat) ^ 4 = 2 ^ 32 := by norm_num
    have h2to64 : (256 : Nat) ^ 8 = 2 ^ 64 := by norm_num
    have hlen : ((off, fk) :: index).length = index.length + 1 := rfl
    rw [hlen]
    unfold readIndexLoop
    rw [List.map_cons, List.flatten_cons]
    set M : Bytes :=
      (index.map fun ie => leBytes 8 ie.1 ++ leBytes 4 ie.2.length ++ ie.2).flatten
      with hM
    simp only [List.append_assoc]
    have hlen1 : (leBytes 8 off ++ (leBytes 4 fk.length ++ (fk ++ (M ++ rest)))).length =
        12 + fk.length + M.length + rest.length := by
      simp; omega
    rw [if_neg (by rw [hlen1]; omega)]
    rw [take_leBytes_append, drop_leBytes_append]
    rw [readLE_leBytes_of_lt (by rw [h2to64]; exact hoff1)]
    have hlen2 : (leBytes 4 fk.length ++ (fk ++ (M ++ rest))).length =
        4 + fk.length + M.length + rest.length := by
      simp; omega
    rw [if_neg (by rw [hlen2]; omega)]
    rw [take_leBytes_append, drop_leBytes_append]
    rw [readLE_leBytes_of_lt (by rw [h2to32]; exact hkey1)]
    have hlen3 : (fk ++ (M ++ rest)).length = fk.length + M.length + rest.length := by
      simp; omega
    rw [if_neg (by rw [hlen3]; omega)]
    rw [take_append_left _ _ rfl, drop_append_left _ _ rfl]
    rw [ih rest (fun x hx => hoff x (List.mem_cons_of_mem _ hx))
      (fun x hx => hkey x (List.mem_cons_of_mem _ hx))]

/-! ## Writer-state invariant

`addAll` folds `add` over a list of entries; the invariant `WInv` relates
the writer state to the blocks it has flushed so far. -/

/-- `SSTableWriter::add` folded over a list of entries, stopping at the
first error. -/
def SSTableWriter.addAll : SSTableWriter → List SSTableEntry → SSTableWriter × Except Error Unit
  | w, [] => (w, .ok ())
  | w, e :: rest =>
    match w.add e.key e.operation e.value with
    | (w', .ok _) => SSTableWriter.addAll w' rest
    | (w', .error err) => (w', .error err)

/-- Write a sequence of entries through a fresh writer and `finish`,
returning the file bytes. -/
def sstWriteAll (block_size : Nat) (E : List SSTableEntry) : Except Error Bytes :=
  match SSTableWriter.addAll (SSTableWriter.new block_size) E with
  | (w, .ok _) =>
    match w.finish with
    | .ok (file, _) => .ok file
    | .error e => .error e
  | (_, .error e) => .error e

/-- Placeholder entry for `headD` (flushed blocks are never empty). -/
def dfltEntry : SSTableEntry := ⟨⟨[], 0⟩, [], .Put⟩

/-- Concatenated bytes of a list of flushed blocks. -/
def blocksFile : List (List SSTableEntry) → Bytes
  | [] => []
  | b :: bs => block_bytes b ++ blocksFile bs

/-- Index entries of a list of flushed blocks laid out from offset `off`. -/
def blocksIndex : List (List SSTableEntry) → Nat → List (Nat × Bytes)
  | [], _ => []
  | b :: bs, off => (off, (b.headD dfltEntry).key.user_key) ::
      blocksIndex bs (off + (block_bytes b).length)

theorem blocksFile_append (bs : List (List SSTableEntry)) (b : List SSTableEntry) :
    blocksFile (bs ++ [b]) = blocksFile bs ++ block_bytes b := by
  induction bs with
  | nil => simp [blocksFile]
  | cons b0 bs ih => simp [blocksFile, ih]

theorem blocksIndex_append (bs : List (List SSTableEntry)) (b : List SSTableEntry) :
    ∀ off, blocksIndex (bs ++ [b]) off =
      blocksIndex bs off ++
        [(off + (blocksFile bs).length, (b.headD dfltEntry).key.user_key)] := by
  induction bs with
  | nil => intro off; simp [blocksIndex, blocksFile]
  | cons b0 bs ih =>
    intro off
    simp only [List.cons_append, blocksIndex, List.append_eq]
    rw [ih]
    simp only [blocksFile, List.length_append]
    rw [Nat.add_assoc]

/-- The invariant tying a writer state to the blocks it has flushed and
the entries processed so far. -/
structure WInv (block_size : Nat) (w : SSTableWriter) (bs : List (List SSTableEntry))
    (processed : List SSTableEntry) : Prop where
  hfile : w.file = blocksFile bs
  hoff : w.file_offset = (blocksFile bs).length
  hindex : w.index_entries = blocksIndex bs 0
  hjoin : bs.flatten ++ w.current_block = processed
  hnonempty : ∀ b ∈ bs, b ≠ []
  hlast : w.last_key = processed.getLast?.map (fun e => e.key)
  hsmall : w.smallest_key = processed.head?.map (fun e => e.key)
  hlarge : w.largest_key = processed.getLast?.map (fun e => e.key)
  hfin : w.finished = false
  hbs : w.block_size = block_size

theorem winv_new (block_size : Nat) : WInv block_size (SSTableWriter.new block_size) [] [] := by
  constructor <;> simp [SSTableWriter.new, blocksFile, blocksIndex]

theorem add_step {block_size : Nat} {w : SSTableWriter} {bs : List (List SSTableEntry)}
    {processed : List SSTableEntry} (hinv : WInv block_size w bs processed)
    (e : SSTableEntry)
    (hszk : e.key.user_key.length ≤ MAX_ENTRY_SIZE) (hszv : e.value.length ≤ MAX_ENTRY_SIZE)
    (hord : ∀ last ∈ processed.getLast?, last.key.cmp e.key = .lt) :
    (w.add e.key e.operation e.value).2 = .ok () ∧
    ∃ bs', WInv block_size (w.add e.key e.operation e.value).1 bs' (processed ++ [e]) := by
  have hng : SSTableWriter.keyNotGreater w.last_key e.key = false := by
    rw [Bool.eq_false_iff]
    intro hc
    obtain ⟨last, hl, hne⟩ := (keyNotGreater_iff _ _).mp hc
    rw [hinv.hlast] at hl
    obtain ⟨lastE, hlE, hlkey⟩ := Option.map_eq_some'.mp hl
    have hcmp := hord lastE (Option.mem_def.mpr hlE)
    rw [← hlkey] at hne
    exact hne (SSTInternalKey.cmp_gt_iff.mpr hcmp)
  have hhead : (processed ++ [e]).head? = some (processed.headD e) := by
    cases processed with
    | nil => rfl
    | cons p t => rfl
  unfold SSTableWriter.add
  rw [if_neg (by rw [hinv.hfin]; exact Bool.false_ne_true)]
  rw [if_neg (by omega)]
  rw [if_neg (by omega)]
  rw [hng, if_neg Bool.false_ne_true]
  refine ⟨rfl, ?_⟩
  dsimp only
  split
  case isTrue hfl =>
    -- the current block is flushed before the entry is buffered
    refine ⟨bs ++ [w.current_block], ?_⟩
    have hcbne : w.current_block ≠ [] := hfl.1
    obtain ⟨c0, ct, hcb⟩ : ∃ c0 ct, w.current_block = c0 :: ct := by
      cases hcb : w.current_block with
      | nil => exact absurd hcb hcbne
      | cons c0 ct => exact ⟨c0, ct, rfl⟩
    have hflush : SSTableWriter.flush_block
        { w with
          smallest_key := match w.smallest_key with | none => some e.key | some s => some s
          largest_key := some e.key } =
        { w with
          smallest_key := match w.smallest_key with | none => some e.key | some s => some s
          largest_key := some e.key
          file := w.file ++ block_bytes w.current_block
          file_offset := w.file_offset + (block_bytes w.current_block).length
          index_entries := w.index_entries ++ [(w.file_offset, c0.key.user_key)]
          current_block := []
          current_block_size := 0 } := by
      unfold SSTableWriter.flush_block
      dsimp only
      rw [hcb]
    rw [hflush]
    constructor
    · show w.file ++ block_bytes w.current_block = blocksFile (bs ++ [w.current_block])
      rw [blocksFile_append, hinv.hfile]
    · show w.file_offset + (block_bytes w.current_block).length =
        (blocksFile (bs ++ [w.current_block])).length
      rw [blocksFile_append, List.length_append, hinv.hoff]
    · show w.index_entries ++ [(w.file_offset, c0.key.user_key)] =
        blocksIndex (bs ++ [w.current_block]) 0
      rw [blocksIndex_append, hinv.hindex, hinv.hoff, hcb, Nat.zero_add]
      rfl
    · show (bs ++ [w.current_block]).flatten ++ ([] ++ [⟨e.key, e.value, e.operation⟩]) =
        processed ++ [e]
      rw [List.flatten_append]
      simp only [List.flatten_cons, List.flatten_nil, List.append_nil, List.nil_append]
      rw [hinv.hjoin]
    · intro b hb
      rcases List.mem_append.mp hb with h | h
      · exact hinv.hnonempty b h
      · rw [List.mem_singleton.mp h]
        exact hcbne
    · show some e.key = (processed ++ [e]).getLast?.map (fun x => x.key)
      rw [List.getLast?_concat]
      rfl
    · show (match w.smallest_key with
        | none => some e.key | some s => some s) =
        (processed ++ [e]).head?.map (fun x => x.key)
      rw [hinv.hsmall, hhead]
      cases processed with
      | nil => rfl
      | cons p t => rfl
    · show some e.key = (processed ++ [e]).getLast?.map (fun x => x.key)
      rw [List.getLast?_concat]
      rfl
    · exact hinv.hfin
    · exact hinv.hbs
  case isFalse hfl =>
    refine ⟨bs, ?_⟩
    constructor
    · exact hinv.hfile
    · exact hinv.hoff
    · exact hinv.hindex
    · show bs.flatten ++ (w.current_block ++ [⟨e.key, e.value, e.operation⟩]) =
        processed ++ [e]
      rw [← List.append_assoc, hinv.hjoin]
    · exact hinv.hnonempty
    · show some e.key = (processed ++ [e]).getLast?.map (fun x => x.key)
      rw [List.getLast?_concat]
      rfl
    · show (match w.smallest_key with
        | none => some e.key | some s => some s) =
        (processed ++ [e]).head?.map (fun x => x.key)
      rw [hinv.hsmall, hhead]
      cases processed with
      | nil => rfl
      | cons p t => rfl
    · show some e.key = (processed ++ [e]).getLast?.map (fun x => x.key)
      rw [List.getLast?_concat]
      rfl
    · exact hinv.hfin
    · exact hinv.hbs

theorem addAll_spec {block_size : Nat} :
    ∀ (E : List SSTableEntry) (w : SSTableWriter) (bs : List (List SSTableEntry))
      (processed : List SSTableEntry),
      WInv block_size w bs processed →
      List.Chain' entryLt (processed ++ E) →
      (∀ e ∈ E, e.key.user_key.length ≤ MAX_ENTRY_SIZE ∧ e.value.length ≤ MAX_ENTRY_SIZE) →
      (SSTableWriter.addAll w E).2 = .ok () ∧
      ∃ bs', WInv block_size (SSTableWriter.addAll w E).1 bs' (processed ++ E) := by
  intro E
  induction E with
  | nil =>
    intro w bs processed hinv _ _
    refine ⟨rfl, bs, ?_⟩
    rw [List.append_nil]
    exact hinv
  | cons e rest ih =>
    intro w bs processed hinv hchain hsz
    have hord : ∀ last ∈ processed.getLast?, last.key.cmp e.key = .lt := by
      intro last hl
      exact (List.chain'_append.mp hchain).2.2 last hl e rfl
    obtain ⟨hok, bs', hinv'⟩ := add_step hinv e (hsz e (List.mem_cons_self _ _)).1
      (hsz e (List.mem_cons_self _ _)).2 hord
    obtain ⟨w', hw'⟩ : ∃ w', w.add e.key e.operation e.value = (w', .ok ()) :=
      ⟨(w.add e.key e.operation e.value).1, by rw [← hok]⟩
    rw [hw'] at hinv'
    unfold SSTableWriter.addAll
    rw [hw']
    have hchain' : List.Chain' entryLt ((processed ++ [e]) ++ rest) := by
      rw [List.append_assoc]
      exact hchain
    have hres := ih w' bs' (processed ++ [e]) hinv' hchain'
      (fun x hx => hsz x (List.mem_cons_of_mem _ hx))
    rw [List.append_assoc] at hres
    exact hres

theorem finish_spec {block_size : Nat} {w : SSTableWriter} {bs : List (List SSTableEntry)}
    {processed : List SSTableEntry} (hinv : WInv block_size w bs processed)
    (hne : processed ≠ []) :
    ∃ bsF, bsF.flatten = processed ∧ (∀ b ∈ bsF, b ≠ []) ∧
      w.finish.map Prod.fst = .ok (blocksFile bsF ++ indexBytes (blocksIndex bsF 0) ++
        bloom_bytes ++
        (leBytes 8 (blocksFile bsF).length ++
         leBytes 8 (indexBytes (blocksIndex bsF 0)).length ++
         leBytes 8 ((blocksFile bsF).length + (indexBytes (blocksIndex bsF 0)).length) ++
         leBytes 8 bloom_bytes.length ++ leBytes 8 SSTABLE_MAGIC)) := by
  obtain ⟨p0, ps, hp⟩ : ∃ p0 ps, processed = p0 :: ps := by
    cases processed with
    | nil => exact absurd rfl hne
    | cons p0 ps => exact ⟨p0, ps, rfl⟩
  have hs0 : w.smallest_key = some p0.key := by rw [hinv.hsmall, hp]; rfl
  obtain ⟨lk, hlk⟩ : ∃ lk, w.largest_key = some lk := by
    rw [hinv.hlarge, hp]
    cases hgl : (p0 :: ps).getLast? with
    | none => exact absurd hgl (by simp)
    | some x => exact ⟨x.key, rfl⟩
  cases hcb : w.current_block with
  | nil =>
    refine ⟨bs, ?_, hinv.hnonempty, ?_⟩
    · rw [← hinv.hjoin, hcb, List.append_nil]
    · have hflush : w.flush_block = w := by
        unfold SSTableWriter.flush_block
        rw [hcb]
      unfold SSTableWriter.finish
      rw [if_neg (by rw [hinv.hfin]; exact Bool.false_ne_true)]
      dsimp only
      rw [hflush, hs0, hlk]
      dsimp only [Except.map]
      rw [hinv.hfile, hinv.hoff, hinv.hindex]
      rw [Nat.add_sub_cancel_left, Nat.add_sub_cancel_left]
  | cons c0 ct =>
    have hflush : w.flush_block = { w with
        file := w.file ++ block_bytes (c0 :: ct)
        file_offset := w.file_offset + (block_bytes (c0 :: ct)).length
        index_entries := w.index_entries ++ [(w.file_offset, c0.key.user_key)]
        current_block := []
        current_block_size := 0 } := by
      unfold SSTableWriter.flush_block
      rw [hcb]
    refine ⟨bs ++ [c0 :: ct], ?_, ?_, ?_⟩
    · rw [List.flatten_append]
      simp only [List.flatten_cons, List.flatten_nil, List.append_nil]
      rw [← hcb, hinv.hjoin]
    · intro b hb
      rcases List.mem_append.mp hb with h | h
      · exact hinv.hnonempty b h
      · rw [List.mem_singleton.mp h]
        exact List.cons_ne_nil _ _
    · unfold SSTableWriter.finish
      rw [if_neg (by rw [hinv.hfin]; exact Bool.false_ne_true)]
      dsimp only
      rw [hflush]
      dsimp only
      rw [hs0, hlk]
      dsimp only [Except.map]
      rw [blocksFile_append, blocksIndex_append, Nat.zero_add]
      rw [hinv.hfile, hinv.hoff, hinv.hindex]
      rw [Nat.add_sub_cancel_left, Nat.add_sub_cancel_left]
      simp only [List.length_append, List.headD_cons, List.append_assoc]

theorem take_leBytes (w n : Nat) : (leBytes w n).take w = leBytes w n :=
  List.take_of_length_le (le_of_eq (leBytes_length _ _))

/-- Parsing the footer laid out by `finish` recovers its five u64 fields. -/
theorem footer_from_bytes_spec (a b c d : Nat) (ha : a < 2 ^ 64) (hb : b < 2 ^ 64)
    (hc : c < 2 ^ 64) (hd : d < 2 ^ 64) :
    Footer.from_bytes (leBytes 8 a ++ leBytes 8 b ++ leBytes 8 c ++ leBytes 8 d ++
      leBytes 8 SSTABLE_MAGIC) = .ok ⟨a, b, c, d, SSTABLE_MAGIC⟩ := by
  have h2to64 : (256 : Nat) ^ 8 = 2 ^ 64 := by norm_num
  have e8 : (leBytes 8 a ++ leBytes 8 b ++ leBytes 8 c ++ leBytes 8 d ++
      leBytes 8 SSTABLE_MAGIC).drop 8 =
      leBytes 8 b ++ (leBytes 8 c ++ (leBytes 8 d ++ leBytes 8 SSTABLE_MAGIC)) := by
    simp only [List.append_assoc, drop_leBytes_append]
  have e16 : (leBytes 8 a ++ leBytes 8 b ++ leBytes 8 c ++ leBytes 8 d ++
      leBytes 8 SSTABLE_MAGIC).drop 16 =
      leBytes 8 c ++ (leBytes 8 d ++ leBytes 8 SSTABLE_MAGIC) := by
    rw [show (16 : Nat) = 8 + 8 from rfl, ← List.drop_drop, e8, drop_leBytes_append]
  have e24 : (leBytes 8 a ++ leBytes 8 b ++ leBytes 8 c ++ leBytes 8 d ++
      leBytes 8 SSTABLE_MAGIC).drop 24 =
      leBytes 8 d ++ leBytes 8 SSTABLE_MAGIC := by
    rw [show (24 : Nat) = 16 + 8 from rfl, ← List.drop_drop, e16, drop_leBytes_append]
  have e32 : (leBytes 8 a ++ leBytes 8 b ++ leBytes 8 c ++ leBytes 8 d ++
      leBytes 8 SSTABLE_MAGIC).drop 32 = leBytes 8 SSTABLE_MAGIC := by
    rw [show (32 : Nat) = 24 + 8 from rfl, ← List.drop_drop, e24, drop_leBytes_append]
  unfold Footer.from_bytes
  rw [if_neg (by simp [FOOTER_SIZE])]
  dsimp only
  rw [e32, take_leBytes, readLE_leBytes_of_lt (by rw [h2to64]; decide)]
  rw [if_neg (by decide)]
  rw [show (leBytes 8 a ++ leBytes 8 b ++ leBytes 8 c ++ leBytes 8 d ++
      leBytes 8 SSTABLE_MAGIC).take 8 = leBytes 8 a by
    simp only [List.append_assoc, take_leBytes_append]]
  rw [e8, e16, e24]
  rw [take_leBytes_append, take_leBytes_append, take_leBytes_append]
  rw [readLE_leBytes_of_lt (by rw [h2to64]; exact ha),
    readLE_leBytes_of_lt (by rw [h2to64]; exact hb),
    readLE_leBytes_of_lt (by rw [h2to64]; exact hc),
    readLE_leBytes_of_lt (by rw [h2to64]; exact hd)]

theorem blocksIndex_length (bs : List (List SSTableEntry)) :
    ∀ off, (blocksIndex bs off).length = bs.length := by
  induction bs with
  | nil => intro off; rfl
  | cons b bs ih => intro off; simp [blocksIndex, ih]

theorem blocksIndex_offset_le (bs : List (List SSTableEntry)) :
    ∀ off, ∀ ie ∈ blocksIndex bs off, ie.1 ≤ off + (blocksFile bs).length := by
  induction bs with
  | nil => intro off ie h; exact absurd h (List.not_mem_nil _)
  | cons b bs ih =>
    intro off ie h
    rcases List.mem_cons.mp h with he | ht
    · rw [he]
      exact Nat.le_add_right _ _
    · have hb := ih (off + (block_bytes b).length) ie ht
      simp only [blocksFile, List.length_append]
      omega

theorem blocksIndex_key (bs : List (List SSTableEntry)) :
    ∀ off, ∀ ie ∈ blocksIndex bs off, ∃ b ∈ bs, ie.2 = (b.headD dfltEntry).key.user_key := by
  induction bs with
  | nil => intro off ie h; exact absurd h (List.not_mem_nil _)
  | cons b bs ih =>
    intro off ie h
    rcases List.mem_cons.mp h with he | ht
    · exact ⟨b, List.mem_cons_self _ _, by rw [he]⟩
    · obtain ⟨b', hb', he'⟩ := ih _ ie ht
      exact ⟨b', List.mem_cons_of_mem _ hb', he'⟩

theorem headD_mem {α : Type} (l : List α) (d : α) (h : l ≠ []) : l.headD d ∈ l := by
  cases l with
  | nil => exact absurd rfl h
  | cons a t => exact List.mem_cons_self _ _

theorem length_le_flatten_of_mem {α : Type} :
    ∀ (bs : List (List α)) (b : List α), b ∈ bs → b.length ≤ bs.flatten.length := by
  intro bs
  induction bs with
  | nil => intro b h; exact absurd h (List.not_mem_nil _)
  | cons b0 bs ih =>
    intro b h
    rcases List.mem_cons.mp h with he | ht
    · rw [he]
      simp [List.flatten_cons]
    · have := ih b ht
      simp only [List.flatten_cons, List.length_append]
      omega

theorem blocks_le_flatten {α : Type} :
    ∀ (bs : List (List α)), (∀ b ∈ bs, b ≠ []) → bs.length ≤ bs.flatten.length := by
  intro bs
  induction bs with
  | nil => intro _; exact Nat.le_refl _
  | cons b0 bs ih =>
    intro hne
    have h0 : 0 < b0.length :=
      List.length_pos.mpr (hne b0 (List.mem_cons_self _ _))
    have := ih (fun b hb => hne b (List.mem_cons_of_mem _ hb))
    simp only [List.flatten_cons, List.length_append, List.length_cons]
    omega

/-- Opening a file laid out as data blocks, index, bloom placeholder and
footer recovers exactly the index entries that were serialized. -/
theorem sstable_open_gen (A X : Bytes) (idx : List (Nat × Bytes))
    (hX : X = indexBytes idx)
    (hoffs : ∀ ie ∈ idx, ie.1 < 2 ^ 64)
    (hkeys : ∀ ie ∈ idx, ie.2.length < 2 ^ 32)
    (hidxlen : idx.length < 2 ^ 32)
    (hA : A.length < 2 ^ 64) (hXlen : X.length < 2 ^ 64)
    (hAX : A.length + X.length < 2 ^ 64) :
    SSTableReader.open (A ++ X ++ bloom_bytes ++
      (leBytes 8 A.length ++ leBytes 8 X.length ++ leBytes 8 (A.length + X.length) ++
       leBytes 8 bloom_bytes.length ++ leBytes 8 SSTABLE_MAGIC)) =
    .ok ⟨A ++ X ++ bloom_bytes ++
      (leBytes 8 A.length ++ leBytes 8 X.length ++ leBytes 8 (A.length + X.length) ++
       leBytes 8 bloom_bytes.length ++ leBytes 8 SSTABLE_MAGIC), idx⟩ := by
  have h2to32 : (256 : Nat) ^ 4 = 2 ^ 32 := by norm_num
  have hfoot : (A ++ X ++ bloom_bytes ++
      (leBytes 8 A.length ++ leBytes 8 X.length ++ leBytes 8 (A.length + X.length) ++
       leBytes 8 bloom_bytes.length ++ leBytes 8 SSTABLE_MAGIC)).drop
      ((A ++ X ++ bloom_bytes ++
      (leBytes 8 A.length ++ leBytes 8 X.length ++ leBytes 8 (A.length + X.length) ++
       leBytes 8 bloom_bytes.length ++ leBytes 8 SSTABLE_MAGIC)).length - FOOTER_SIZE) =
      leBytes 8 A.length ++ leBytes 8 X.length ++ leBytes 8 (A.length + X.length) ++
       leBytes 8 bloom_bytes.length ++ leBytes 8 SSTABLE_MAGIC :=
    drop_append_left _ _ (by simp [bloom_bytes, FOOTER_SIZE]; omega)
  have hrf : read_footer (A ++ X ++ bloom_bytes ++
      (leBytes 8 A.length ++ leBytes 8 X.length ++ leBytes 8 (A.length + X.length) ++
       leBytes 8 bloom_bytes.length ++ leBytes 8 SSTABLE_MAGIC)) =
      .ok ⟨A.length, X.length, A.length + X.length, bloom_bytes.length, SSTABLE_MAGIC⟩ := by
    unfold read_footer
    rw [if_neg (by simp [bloom_bytes, FOOTER_SIZE]; omega)]
    rw [hfoot]
    exact footer_from_bytes_spec _ _ _ _ hA hXlen hAX (by norm_num [bloom_bytes])
  have hdropA : (A ++ X ++ bloom_bytes ++
      (leBytes 8 A.length ++ leBytes 8 X.length ++ leBytes 8 (A.length + X.length) ++
       leBytes 8 bloom_bytes.length ++ leBytes 8 SSTABLE_MAGIC)).drop A.length =
      X ++ (bloom_bytes ++
      (leBytes 8 A.length ++ leBytes 8 X.length ++ leBytes 8 (A.length + X.length) ++
       leBytes 8 bloom_bytes.length ++ leBytes 8 SSTABLE_MAGIC)) := by
    rw [List.append_assoc, List.append_assoc]
    exact drop_append_left _ _ rfl
  have hri : read_index (A ++ X ++ bloom_bytes ++
      (leBytes 8 A.length ++ leBytes 8 X.length ++ leBytes 8 (A.length + X.length) ++
       leBytes 8 bloom_bytes.length ++ leBytes 8 SSTABLE_MAGIC))
      ⟨A.length, X.length, A.length + X.length, bloom_bytes.length, SSTABLE_MAGIC⟩ =
      .ok idx := by
    unfold read_index
    dsimp only
    rw [hdropA, hX]
    unfold indexBytes
    rw [List.append_assoc, List.append_assoc]
    rw [if_neg (by simp only [List.length_append, leBytes_length]; omega)]
    rw [take_leBytes_append, drop_leBytes_append]
    rw [readLE_leBytes_of_lt (by rw [h2to32]; exact hidxlen)]
    rw [readIndexLoop_spec idx _ hoffs hkeys]
    dsimp only
    rw [if_neg (by simp only [List.length_append, leBytes_length]; omega)]
  unfold SSTableReader.open
  rw [hrf]
  dsimp only
  rw [hri]

/-- Iterating the blocks named by `blocksIndex` over a file that embeds
`blocksFile bs` at offset `pre.length` yields the concatenated entries. -/
theorem iterBlocksLoop_spec (file : Bytes) (idx0 : List (Nat × Bytes)) (suffix : Bytes) :
    ∀ (bs : List (List SSTableEntry)) (pre : Bytes),
      file = pre ++ (blocksFile bs ++ suffix) →
      (∀ e ∈ bs.flatten, e.key.user_key.length < 2 ^ 32 ∧ e.value.length < 2 ^ 32 ∧
        e.key.timestamp < 2 ^ 64) →
      (∀ b ∈ bs, b.length < 2 ^ 32) →
      iterBlocksLoop ⟨file, idx0⟩ (blocksIndex bs pre.length) = .ok bs.flatten := by
  intro bs
  induction bs with
  | nil => intro pre _ _ _; rfl
  | cons b bs ih =>
    intro pre hfile hsz hcnt
    have hrb : SSTableReader.read_block ⟨file, idx0⟩ pre.length = .ok b := by
      apply read_block_spec file idx0 pre.length b (blocksFile bs ++ suffix)
      · rw [hfile]
        rw [show pre ++ (blocksFile (b :: bs) ++ suffix) =
          pre ++ (block_bytes b ++ (blocksFile bs ++ suffix)) by
            simp [blocksFile]]
        exact drop_append_left _ _ rfl
      · exact fun e he => hsz e (List.mem_flatten.mpr ⟨b, List.mem_cons_self _ _, he⟩)
      · exact hcnt b (List.mem_cons_self _ _)
    simp only [blocksIndex, iterBlocksLoop]
    rw [hrb]
    dsimp only
    have hih := ih (pre ++ block_bytes b)
      (by rw [hfile]; simp [blocksFile])
      (fun e he => hsz e (by rw [List.flatten_cons]; exact List.mem_append_right _ he))
      (fun x hx => hcnt x (List.mem_cons_of_mem _ hx))
    rw [show (pre ++ block_bytes b).length = pre.length + (block_bytes b).length by simp]
      at hih
    rw [hih]
    dsimp only
    rw [List.flatten_cons]

/-- **C3**: for every sequence `E` of entries added in strictly
increasing internal-key order to an `SSTableWriter` on which `finish`
then succeeds (sizes within the writer's limits, u64 timestamps, fewer
than `2^32` entries, file within u64 addressing): opening the resulting
file with `SSTableReader` and iterating yields exactly the entries of
`E` — same user keys, versions, operations and values, in the same
order. -/
theorem sstable_write_read_identity (block_size : Nat) (E : List SSTableEntry) (file : Bytes)
    (hsort : List.Chain' entryLt E)
    (hsz : ∀ e ∈ E, e.key.user_key.length ≤ MAX_ENTRY_SIZE ∧
      e.value.length ≤ MAX_ENTRY_SIZE ∧ e.key.timestamp < 2 ^ 64)
    (hcount : E.length < 2 ^ 32)
    (hwrite : sstWriteAll block_size E = .ok file)
    (hflen : file.length < 2 ^ 64) :
    ∃ r, SSTableReader.open file = .ok r ∧ r.iterAll = .ok E := by
  have hmax32 : MAX_ENTRY_SIZE < 2 ^ 32 := by norm_num [MAX_ENTRY_SIZE]
  have hEne : E ≠ [] := by
    intro hE
    rw [hE] at hwrite
    rw [show sstWriteAll block_size [] = .error (.EmptyOperation sstEmptyMsg) from rfl]
      at hwrite
    simp at hwrite
  obtain ⟨hok, bsW, hinvW⟩ := addAll_spec E (SSTableWriter.new block_size) [] []
    (winv_new block_size) (by rw [List.nil_append]; exact hsort)
    (fun e he => ⟨(hsz e he).1, (hsz e he).2.1⟩)
  rw [List.nil_append] at hinvW
  obtain ⟨W, hW⟩ : ∃ W, SSTableWriter.addAll (SSTableWriter.new block_size) E =
      (W, .ok ()) := ⟨_, by rw [← hok]⟩
  rw [hW] at hinvW
  obtain ⟨bsF, hflat, hne, hfin⟩ := finish_spec (w := W) hinvW hEne
  unfold sstWriteAll at hwrite
  rw [hW] at hwrite
  dsimp only at hwrite
  cases hWf : W.finish with
  | error e =>
    rw [hWf] at hwrite
    simp at hwrite
  | ok p =>
    obtain ⟨f, info⟩ := p
    rw [hWf] at hwrite hfin
    dsimp only at hwrite
    simp only [Except.map] at hfin
    have hfeq : f = file := by
      injection hwrite
    have hFILE : file = blocksFile bsF ++ indexBytes (blocksIndex bsF 0) ++
        bloom_bytes ++
        (leBytes 8 (blocksFile bsF).length ++
         leBytes 8 (indexBytes (blocksIndex bsF 0)).length ++
         leBytes 8 ((blocksFile bsF).length + (indexBytes (blocksIndex bsF 0)).length) ++
         leBytes 8 bloom_bytes.length ++ leBytes 8 SSTABLE_MAGIC) := by
      rw [← hfeq]
      injection hfin
    subst hFILE
    have hlenfile : (blocksFile bsF).length + (indexBytes (blocksIndex bsF 0)).length +
        56 < 2 ^ 64 := by
      have := hflen
      simp only [List.length_append, leBytes_length] at this
      simp only [bloom_bytes, List.length_append, List.length_replicate, leBytes_length]
        at this
      omega
    have hszE : ∀ e ∈ bsF.flatten, e.key.user_key.length < 2 ^ 32 ∧
        e.value.length < 2 ^ 32 ∧ e.key.timestamp < 2 ^ 64 := by
      intro e he
      rw [hflat] at he
      exact ⟨lt_of_le_of_lt (hsz e he).1 hmax32, lt_of_le_of_lt (hsz e he).2.1 hmax32,
        (hsz e he).2.2⟩
    have hoffs : ∀ ie ∈ blocksIndex bsF 0, ie.1 < 2 ^ 64 := by
      intro ie hie
      have := blocksIndex_offset_le bsF 0 ie hie
      omega
    have hkeys : ∀ ie ∈ blocksIndex bsF 0, ie.2.length < 2 ^ 32 := by
      intro ie hie
      obtain ⟨b, hb, he⟩ := blocksIndex_key bsF 0 ie hie
      rw [he]
      exact (hszE _ (List.mem_flatten.mpr ⟨b, hb, headD_mem b dfltEntry (hne b hb)⟩)).1
    have hidxlen : (blocksIndex bsF 0).length < 2 ^ 32 := by
      rw [blocksIndex_length]
      have h1 := blocks_le_flatten bsF hne
      rw [hflat] at h1
      omega
    have hopen := sstable_open_gen (blocksFile bsF) (indexBytes (blocksIndex bsF 0))
      (blocksIndex bsF 0) rfl hoffs hkeys hidxlen (by omega) (by omega) (by omega)
    refine ⟨_, hopen, ?_⟩
    unfold SSTableReader.iterAll
    dsimp only
    have hiter := iterBlocksLoop_spec
      (blocksFile bsF ++ indexBytes (blocksIndex bsF 0) ++ bloom_bytes ++
        (leBytes 8 (blocksFile bsF).length ++
         leBytes 8 (indexBytes (blocksIndex bsF 0)).length ++
         leBytes 8 ((blocksFile bsF).length + (indexBytes (blocksIndex bsF 0)).length) ++
         leBytes 8 bloom_bytes.length ++ leBytes 8 SSTABLE_MAGIC))
      (blocksIndex bsF 0)
      (indexBytes (blocksIndex bsF 0) ++ (bloom_bytes ++
        (leBytes 8 (blocksFile bsF).length ++
         leBytes 8 (indexBytes (blocksIndex bsF 0)).length ++
         leBytes 8 ((blocksFile bsF).length + (indexBytes (blocksIndex bsF 0)).length) ++
         leBytes 8 bloom_bytes.length ++ leBytes 8 SSTABLE_MAGIC)))
      bsF []
      (by simp [List.append_assoc])
      hszE
      (fun b hb => by
        have h1 := length_le_flatten_of_mem bsF b hb
        rw [hflat] at h1
        omega)
    rw [show (blocksIndex bsF ([] : Bytes).length) = blocksIndex bsF 0 from rfl] at hiter
    rw [hiter, hflat]

/-- Two entries in strictly increasing internal-key order used by the
C3 witness. -/
def c3E : List SSTableEntry :=
  [⟨⟨[1], 5⟩, [9], .Put⟩, ⟨⟨[2], 7⟩, [], .Delete⟩]

theorem sstable_write_read_identity_witness :
    List.Chain' entryLt c3E ∧
    ∃ file, sstWriteAll DEFAULT_BLOCK_SIZE c3E = .ok file ∧
      ∃ r, SSTableReader.open file = .ok r ∧ r.iterAll = .ok c3E := by
  have hch : List.Chain' entryLt c3E := by
    rw [show c3E = [⟨⟨[1], 5⟩, [9], .Put⟩, ⟨⟨[2], 7⟩, [], .Delete⟩] from rfl,
      List.chain'_cons]
    exact ⟨by decide, List.chain'_singleton _⟩
  exact ⟨hch, _, rfl,
    sstable_write_read_identity DEFAULT_BLOCK_SIZE c3E _ hch
      (by decide) (by decide) rfl (by decide)⟩
